import Mathlib

/-!
Verification development for the `muhasebe` backend core:
field extraction (`app/services/extraction_service.py`), vendor
resolution (`app/services/vendor_matcher.py`) and the document
lifecycle endpoints (`app/routers/documents.py`).

Python strings are modelled as `List Char`; Python `Decimal` as `ℚ`;
`None` as `Option.none`; raised `HTTPException`s as `Except` errors.
The Python `re` module is modelled by a small backtracking engine
(leftmost match, greedy quantifiers, alternation tried in order),
restricted to the constructs the source's patterns use.  Case
mappings (`str.lower`, `str.upper`, `re.IGNORECASE` folding) are
modelled on the repertoire the source manipulates (ASCII plus the
Turkish letters appearing in the patterns); other characters map to
themselves.
-/

/-- Characters matched by `\s` / split by `str.split()` (ASCII whitespace). -/
def isPySpace (c : Char) : Bool :=
  c = ' ' || c = '\t' || c = '\n' || c = '\r' || c = '\x0b' || c = '\x0c'

/-- Characters matched by `\d`. -/
def isPyDigit (c : Char) : Bool :=
  '0' ≤ c && c ≤ '9'

/-- Combining dot above (U+0307), produced by lowercasing `İ`. -/
def combiningDot : Char := Char.ofNat 0x0307

/-- Lowercase Turkish letters used by the source's patterns and data. -/
def turkishLower : List Char := ['ş', 'ç', 'ğ', 'ü', 'ö', 'ı']

/-- Uppercase Turkish letters used by the source's patterns and data. -/
def turkishUpper : List Char := ['Ş', 'Ç', 'Ğ', 'Ü', 'Ö', 'İ']

/-- Characters matched by `\w` (letters, digits, underscore), on the
ASCII + Turkish repertoire. -/
def isPyWord (c : Char) : Bool :=
  ('a' ≤ c && c ≤ 'z') || ('A' ≤ c && c ≤ 'Z') || isPyDigit c || c = '_'
    || turkishLower.contains c || turkishUpper.contains c

/-- Case-insensitive character comparison for `re.IGNORECASE`; per CPython's
folding, `i`, `I`, `İ` and `ı` all match each other. -/
def foldChar (c : Char) : Char :=
  if 'A' ≤ c && c ≤ 'Z' then Char.ofNat (c.toNat + 32)
  else if c = 'Ş' then 'ş'
  else if c = 'Ç' then 'ç'
  else if c = 'Ğ' then 'ğ'
  else if c = 'Ü' then 'ü'
  else if c = 'Ö' then 'ö'
  else if c = 'İ' then 'i'
  else if c = 'ı' then 'i'
  else c

/-- Lowercase mapping table of `str.lower()` on the modelled repertoire.
`İ` (U+0130) lowers to `i` followed by a combining dot above. -/
def lowerMap : List (Char × List Char) :=
  [('A', ['a']), ('B', ['b']), ('C', ['c']), ('D', ['d']), ('E', ['e']),
   ('F', ['f']), ('G', ['g']), ('H', ['h']), ('I', ['i']), ('J', ['j']),
   ('K', ['k']), ('L', ['l']), ('M', ['m']), ('N', ['n']), ('O', ['o']),
   ('P', ['p']), ('Q', ['q']), ('R', ['r']), ('S', ['s']), ('T', ['t']),
   ('U', ['u']), ('V', ['v']), ('W', ['w']), ('X', ['x']), ('Y', ['y']),
   ('Z', ['z']), ('Ş', ['ş']), ('Ç', ['ç']), ('Ğ', ['ğ']), ('Ü', ['ü']),
   ('Ö', ['ö']), ('İ', ['i', combiningDot])]

/-- Model of Python `str.lower()` on one character. -/
def pyLowerChar (c : Char) : List Char :=
  match lowerMap.find? fun p => p.1 = c with
  | some p => p.2
  | none => [c]

/-- Model of Python `str.lower()`. -/
def pyLower (s : List Char) : List Char :=
  s.flatMap pyLowerChar

/-- Model of Python `str.upper()` on one character (`i` and `ı` both upper
to `I`). -/
def pyUpperChar (c : Char) : Char :=
  if 'a' ≤ c && c ≤ 'z' then Char.ofNat (c.toNat - 32)
  else if c = 'ş' then 'Ş'
  else if c = 'ç' then 'Ç'
  else if c = 'ğ' then 'Ğ'
  else if c = 'ü' then 'Ü'
  else if c = 'ö' then 'Ö'
  else if c = 'ı' then 'I'
  else c

/-- Model of Python `str.upper()`. -/
def pyUpper (s : List Char) : List Char :=
  s.map pyUpperChar

/-- Python's substring test `needle in hay`. -/
def listContains (hay needle : List Char) : Bool :=
  match hay with
  | [] => needle.isEmpty
  | _ :: rest => needle.isPrefixOf hay || listContains rest needle

/-- Python `str.split()`: split on whitespace runs, dropping empty pieces. -/
def pySplit (s : List Char) : List (List Char) :=
  match s with
  | [] => []
  | c :: rest =>
    if isPySpace c then pySplit rest
    else
      match pySplit rest with
      | [] => [[c]]
      | t :: ts =>
        match rest with
        | [] => [[c]]
        | d :: _ => if isPySpace d then [c] :: t :: ts else (c :: t) :: ts

/-- Python `' '.join(s.split())`: collapse whitespace runs to single spaces
and trim the ends. -/
def pyCollapse (s : List Char) : List Char :=
  List.intercalate [' '] (pySplit s)

/-- Python `str.strip()`: drop leading and trailing whitespace. -/
def pyStrip (s : List Char) : List Char :=
  ((s.dropWhile isPySpace).reverse.dropWhile isPySpace).reverse

/-- Regular-expression fragments covering the constructs used by the
source's patterns: literals, greedy bounded character-class repetition,
ordered alternation, greedy option and greedy star. -/
inductive Piece where
  | lit (s : List Char)
  | cls (p : Char → Bool) (lo : Nat) (hi : Option Nat)
  | alt (cases : List (List Piece))
  | opt (ps : List Piece)
  | star (ps : List Piece)

/-- Literal comparison under an optional `re.IGNORECASE` flag. -/
def litHere (ic : Bool) : List Char → List Char → Bool
  | [], _ => true
  | _ :: _, [] => false
  | l :: ls, c :: cs =>
    (if ic then foldChar l = foldChar c else l = c) && litHere ic ls cs

/-- Length of the maximal leading run of class characters. -/
def munch (p : Char → Bool) : List Char → Nat
  | [] => 0
  | c :: rest => if p c then munch p rest + 1 else 0

mutual
/-- Match one piece against the input; the result lists possible
(consumed, remainder) splits in backtracking priority order (greedy
alternatives first), exactly the order Python's engine explores. -/
def pieceM : Nat → Bool → Piece → List Char → List (List Char × List Char)
  | 0, _, _, _ => []
  | fuel + 1, ic, piece, input =>
    match piece with
    | .lit s =>
      if litHere ic s input then [(input.take s.length, input.drop s.length)] else []
    | .cls p lo hi =>
      let m := munch p input
      let m := match hi with | some h => min m h | none => m
      (List.range (m + 1)).reverse.filterMap fun k =>
        if lo ≤ k then some (input.take k, input.drop k) else none
    | .alt cases => cases.flatMap fun ps => piecesM fuel ic ps input
    | .opt ps => piecesM fuel ic ps input ++ [([], input)]
    | .star ps => starM fuel ic ps input

/-- Match a sequence of pieces (priority order preserved). -/
def piecesM : Nat → Bool → List Piece → List Char → List (List Char × List Char)
  | 0, _, _, _ => []
  | _ + 1, _, [], input => [([], input)]
  | fuel + 1, ic, p :: rest, input =>
    (pieceM fuel ic p input).flatMap fun cr =>
      (piecesM fuel ic rest cr.2).map fun cr2 => (cr.1 ++ cr2.1, cr2.2)

/-- Greedy star: more iterations first; an iteration consuming nothing
terminates the loop (the source's starred groups always consume). -/
def starM : Nat → Bool → List Piece → List Char → List (List Char × List Char)
  | 0, _, _, _ => []
  | fuel + 1, ic, ps, input =>
    ((piecesM fuel ic ps input).flatMap fun cr =>
      if cr.1.isEmpty then []
      else (starM fuel ic ps cr.2).map fun cr2 => (cr.1 ++ cr2.1, cr2.2))
    ++ [([], input)]
end

/-- A pattern is a sequence of groups; the flag marks capturing groups. -/
abbrev RePattern := List (Bool × List Piece)

/-- Match a whole pattern, collecting the text consumed by each capturing
group, in backtracking priority order. -/
def groupsM : Nat → Bool → RePattern → List Char → List (List (List Char) × List Char)
  | 0, _, _, _ => []
  | _ + 1, _, [], input => [([], input)]
  | fuel + 1, ic, (flag, ps) :: rest, input =>
    (piecesM fuel ic ps input).flatMap fun cr =>
      (groupsM fuel ic rest cr.2).map fun gr =>
        ((if flag then [cr.1] else []) ++ gr.1, gr.2)

/-- Fuel that is always sufficient for the source's patterns: every star
iteration consumes at least one character and pattern nesting is fixed
and small. -/
def reFuel (input : List Char) : Nat :=
  input.length + 64

/-- Python `re.search`: leftmost match wins; returns (start, length,
captured groups) of the first match found. -/
def reSearch (ic : Bool) (pat : RePattern) (input : List Char) :
    Option (Nat × Nat × List (List Char)) :=
  go 0 input
where
  go (pos : Nat) (remaining : List Char) : Option (Nat × Nat × List (List Char)) :=
    match groupsM (reFuel remaining) ic pat remaining with
    | gr :: _ => some (pos, remaining.length - gr.2.length, gr.1)
    | [] =>
      match remaining with
      | [] => none
      | _ :: rest => go (pos + 1) rest

/-- First captured group of a `re.search`, i.e. `match.group(1)`. -/
def reGroup1 (ic : Bool) (pat : RePattern) (input : List Char) : Option (List Char) :=
  match reSearch ic pat input with
  | some (_, _, g :: _) => some g
  | _ => none

/-- Python `re.findall` for single-group patterns: successive
non-overlapping matches, each contributing its group. -/
def reFindAll (ic : Bool) (pat : RePattern) (input : List Char) : List (List Char) :=
  go (input.length + 1) input
where
  go (fuel : Nat) (remaining : List Char) : List (List Char) :=
    match fuel with
    | 0 => []
    | fuel + 1 =>
      match reSearch ic pat remaining with
      | none => []
      | some (pos, len, gs) =>
        let g := match gs with | g :: _ => g | [] => []
        g :: go fuel (remaining.drop (pos + max len 1))

/-- Python `re.sub(pat, '', s)`: delete every non-overlapping occurrence,
scanning left to right. -/
def reSub (ic : Bool) (pat : RePattern) (input : List Char) : List Char :=
  go (input.length + 1) input
where
  go (fuel : Nat) (remaining : List Char) : List Char :=
    match fuel with
    | 0 => remaining
    | fuel + 1 =>
      match reSearch ic pat remaining with
      | none => remaining
      | some (pos, len, _) =>
        remaining.take pos ++ go fuel (remaining.drop (pos + max len 1))

/-- Shorthand: a non-capturing run of pieces. -/
def ncg (ps : List Piece) : Bool × List Piece := (false, ps)

/-- Shorthand: a capturing run of pieces. -/
def cg (ps : List Piece) : Bool × List Piece := (true, ps)

/-- Shorthand: `\s*`. -/
def wsStar : Piece := .cls isPySpace 0 none

/-- Shorthand: `\.?`. -/
def optDot : Piece := .cls (· = '.') 0 (some 1)

/-- Shorthand: a literal piece from a string. -/
def l (s : String) : Piece := .lit s.data

/-!
## Vendor matcher (`app/services/vendor_matcher.py`)
-/

/-- The nine `SUFFIXES_TO_REMOVE` patterns, in source order. -/
def SUFFIXES_TO_REMOVE : List RePattern :=
  [ [ncg [wsStar, l "ltd", optDot, wsStar, l "şti", optDot]],
    [ncg [wsStar, l "a", optDot, l "s", optDot]],
    [ncg [wsStar, l "tic", optDot, wsStar, .opt [l "ltd", optDot, wsStar, l "şti", optDot]]],
    [ncg [wsStar, l "san", optDot, wsStar, .opt [l "tic", optDot]]],
    [ncg [wsStar, l "org", optDot]],
    [ncg [wsStar, l "holding"]],
    [ncg [wsStar, l "group"]],
    [ncg [wsStar, l "şirket", .opt [l "i"]]],
    [ncg [wsStar, l "market", .opt [l "i"]]] ]

/-- Applies the suffix-removal stage of `normalize_name`: each pattern is
substituted away in order (`re.sub(suffix, '', ·, flags=re.IGNORECASE)`). -/
def stripSuffixes (s : List Char) : List Char :=
  SUFFIXES_TO_REMOVE.foldl (fun n pat => reSub true pat n) s

/-- Deletes punctuation: `re.sub(r'[^\w\s]', '', ·)` is the filter keeping
word and whitespace characters (a single-character-class substitution). -/
def stripPunct (s : List Char) : List Char :=
  s.filter fun c => isPyWord c || isPySpace c

/-- `VendorMatcher.normalize_name`: lowercase, remove the corporate
suffixes, remove punctuation, collapse whitespace, strip. -/
def normalize_name (name : List Char) : List Char :=
  if name.isEmpty then []
  else pyStrip (pyCollapse (stripPunct (stripSuffixes (pyLower name))))

/-!
### difflib.SequenceMatcher (stdlib, used by `calculate_similarity`)

`SequenceMatcher(None, s1, s2).ratio()` with `isjunk=None`; `b2j` drops
popular elements when `len(b) >= 200` (autojunk), and `bjunk` is empty,
so the junk extension passes of `find_longest_match` never fire.
-/

/-- Index lists of `b2j` before autojunk: ascending positions of each
element of `b`. -/
def b2jAll (b : List Char) (c : Char) : List Nat :=
  (List.range b.length).filter fun j => b.getD j ' ' = c

/-- The `b2j` mapping with autojunk applied (populars dropped when
`len(b) >= 200`). -/
def b2jOf (b : List Char) (c : Char) : List Nat :=
  let idxs := b2jAll b c
  if decide (200 ≤ b.length) && decide (b.length / 100 + 1 < idxs.length) then []
  else idxs

/-- Inner loop of `find_longest_match`'s dynamic program: walk the
ascending index list of `b2j[a[i]]`, skipping `j < blo`, breaking at
`j >= bhi`, growing the `j2len` table and the running best block. -/
def flmInner (j2len : Nat → Nat) (blo bhi i : Nat) :
    List Nat → (Nat → Nat) → (Nat × Nat × Nat) → ((Nat → Nat) × (Nat × Nat × Nat))
  | [], newj2len, best => (newj2len, best)
  | j :: js, newj2len, best =>
    if j < blo then flmInner j2len blo bhi i js newj2len best
    else if bhi ≤ j then (newj2len, best)
    else
      let k := (if j = 0 then 0 else j2len (j - 1)) + 1
      let newj2len' := fun x => if x = j then k else newj2len x
      -- Python's `i-k+1`, `j-k+1`; `k ≤ i+1` and `k ≤ j+1`, so written
      -- `i+1-k` to avoid truncated subtraction.
      let best' := if best.2.2 < k then (i + 1 - k, j + 1 - k, k) else best
      flmInner j2len blo bhi i js newj2len' best'

/-- Outer loop of the dynamic program, for `i` in `range(alo, ahi)`. -/
def flmOuter (a : List Char) (b2j : Char → List Nat) (blo bhi : Nat) :
    Nat → Nat → (Nat → Nat) → (Nat × Nat × Nat) → (Nat × Nat × Nat)
  | 0, _, _, best => best
  | steps + 1, i, j2len, best =>
    let r := flmInner j2len blo bhi i (b2j (a.getD i ' ')) (fun _ => 0) best
    flmOuter a b2j blo bhi steps (i + 1) r.1 r.2

/-- Extension loop growing the best block downward while the guarding
junk-status and equality conditions hold. -/
def extLo (a b : List Char) (alo blo : Nat) (junkP : Char → Bool) (want : Bool) :
    Nat → (Nat × Nat × Nat) → (Nat × Nat × Nat)
  | 0, best => best
  | fuel + 1, (bi, bj, bs) =>
    if alo < bi && blo < bj && (junkP (b.getD (bj - 1) ' ') = want)
        && (a.getD (bi - 1) ' ' = b.getD (bj - 1) ' ') then
      extLo a b alo blo junkP want fuel (bi - 1, bj - 1, bs + 1)
    else (bi, bj, bs)

/-- Extension loop growing the best block upward while the guarding
junk-status and equality conditions hold. -/
def extHi (a b : List Char) (ahi bhi : Nat) (junkP : Char → Bool) (want : Bool) :
    Nat → (Nat × Nat × Nat) → (Nat × Nat × Nat)
  | 0, best => best
  | fuel + 1, (bi, bj, bs) =>
    if bi + bs < ahi && bj + bs < bhi && (junkP (b.getD (bj + bs) ' ') = want)
        && (a.getD (bi + bs) ' ' = b.getD (bj + bs) ' ') then
      extHi a b ahi bhi junkP want fuel (bi, bj, bs + 1)
    else (bi, bj, bs)

/-- With `isjunk=None` the `bjunk` set is empty. -/
def bjunkOf (_b : List Char) (_c : Char) : Bool := false

/-- `SequenceMatcher.find_longest_match` on the window
`a[alo:ahi] × b[blo:bhi]`: dynamic program, then the four extension
passes (the junk passes never extend since `bjunk` is empty). -/
def find_longest_match (a b : List Char) (alo ahi blo bhi : Nat) : Nat × Nat × Nat :=
  let jk := bjunkOf b
  let best := flmOuter a (b2jOf b) blo bhi (ahi - alo) alo (fun _ => 0) (alo, blo, 0)
  let best := extLo a b alo blo jk false ahi best
  let best := extHi a b ahi bhi jk false (ahi + bhi) best
  let best := extLo a b alo blo jk true ahi best
  extHi a b ahi bhi jk true (ahi + bhi) best

/-- Queue loop of `get_matching_blocks`: LIFO stack of windows, emitting
the longest match of each window and pushing the flanking windows. -/
def gmbLoop (a b : List Char) :
    Nat → List (Nat × Nat × Nat × Nat) → List (Nat × Nat × Nat) → List (Nat × Nat × Nat)
  | 0, _, acc => acc
  | fuel + 1, queue, acc =>
    match queue.getLast? with
    | none => acc
    | some (alo, ahi, blo, bhi) =>
      let rest := queue.dropLast
      let m := find_longest_match a b alo ahi blo bhi
      let i := m.1
      let j := m.2.1
      let k := m.2.2
      if k = 0 then gmbLoop a b fuel rest acc
      else
        gmbLoop a b fuel
          (rest
            ++ (if alo < i && blo < j then [(alo, i, blo, j)] else [])
            ++ (if i + k < ahi && j + k < bhi then [(i + k, ahi, j + k, bhi)] else []))
          (acc ++ [(i, j, k)])

/-- Lexicographic boolean order used by `matching_blocks.sort()`. -/
def blockLE (x y : Nat × Nat × Nat) : Bool :=
  x.1 < y.1 || (x.1 = y.1 && (x.2.1 < y.2.1 || (x.2.1 = y.2.1 && x.2.2 ≤ y.2.2)))

/-- Insertion step of the stable sort modelling `list.sort()`. -/
def insertBlock (x : Nat × Nat × Nat) : List (Nat × Nat × Nat) → List (Nat × Nat × Nat)
  | [] => [x]
  | y :: ys => if blockLE x y then x :: y :: ys else y :: insertBlock x ys

/-- Stable sort modelling `matching_blocks.sort()`. -/
def sortBlocks : List (Nat × Nat × Nat) → List (Nat × Nat × Nat)
  | [] => []
  | x :: xs => insertBlock x (sortBlocks xs)

/-- Second phase of `get_matching_blocks`: collapse adjacent blocks. -/
def mergeAdj : (Nat × Nat × Nat) → List (Nat × Nat × Nat) → List (Nat × Nat × Nat)
  | (i1, j1, k1), [] => if k1 ≠ 0 then [(i1, j1, k1)] else []
  | (i1, j1, k1), (i2, j2, k2) :: rest =>
    if i1 + k1 = i2 && j1 + k1 = j2 then mergeAdj (i1, j1, k1 + k2) rest
    else (if k1 ≠ 0 then [(i1, j1, k1)] else []) ++ mergeAdj (i2, j2, k2) rest

/-- `SequenceMatcher.get_matching_blocks`: sorted, merged blocks followed
by the `(len(a), len(b), 0)` terminator. -/
def get_matching_blocks (a b : List Char) : List (Nat × Nat × Nat) :=
  mergeAdj (0, 0, 0)
      (sortBlocks (gmbLoop a b (a.length + b.length + 1) [(0, a.length, 0, b.length)] []))
    ++ [(a.length, b.length, 0)]

/-- `SequenceMatcher.ratio()`: `2*M / (len(a)+len(b))`, and `1.0` when
both are empty. -/
def ratioOf (a b : List Char) : ℚ :=
  let m : Nat := ((get_matching_blocks a b).map fun t => t.2.2).sum
  if a.length + b.length ≠ 0 then (2 * m : ℚ) / (a.length + b.length : ℚ) else 1

/-- `VendorMatcher.calculate_similarity`. -/
def calculate_similarity (s1 s2 : List Char) : ℚ :=
  if s1.isEmpty || s2.isEmpty then 0 else ratioOf s1 s2

/-- Python `round` on an exact rational: ties to even. -/
def pyRound (x : ℚ) : ℤ :=
  let f := ⌊x⌋
  let r := x - f
  if r < 1 / 2 then f
  else if 1 / 2 < r then f + 1
  else if f % 2 = 0 then f else f + 1

/-- Python `round(x, 2)`. -/
def roundTo2 (x : ℚ) : ℚ := (pyRound (x * 100) : ℚ) / 100

/-- `VendorAlias` rows (alias text and its normalized form). -/
structure VendorAlias where
  alias_text : List Char
  normalized_alias : List Char
deriving DecidableEq

/-- `Vendor` rows, with their (eagerly loaded) aliases. -/
structure Vendor where
  id : Nat
  user_id : Nat
  display_name : List Char
  normalized_name : List Char
  vkn : Option (List Char) := none
  tckn : Option (List Char) := none
  aliases : List VendorAlias := []
deriving DecidableEq

/-- `VendorMatch` dataclass with its field defaults. -/
structure VendorMatch where
  vendor_id : Option Nat := none
  vendor_name : Option (List Char) := none
  match_type : Option (List Char) := none
  confidence : ℚ := 0
  is_new : Bool := true
deriving DecidableEq

/-- SQLAlchemy `Result.scalar_one_or_none()`: none for no rows, the row
when unique, and a raised `MultipleResultsFound` otherwise. -/
def scalarOneOrNone (rows : List α) : Except (List Char) (Option α) :=
  match rows with
  | [] => .ok none
  | [v] => .ok (some v)
  | _ => .error "MultipleResultsFound".data

/-- Python truthiness of an optional string (`None` and `""` are falsy). -/
def pyTruthy (s : Option (List Char)) : Bool :=
  match s with
  | none => false
  | some cs => !cs.isEmpty

/-- Fuzzy-tier fold of `find_match`: keep the strictly best score over
each vendor's normalized name and each of its aliases, in catalog order. -/
def fuzzyBest (normalized : List Char) (vendors : List Vendor) :
    Option Vendor × ℚ :=
  vendors.foldl
    (fun acc vendor =>
      let acc :=
        let score := calculate_similarity normalized vendor.normalized_name
        if acc.2 < score then (some vendor, score) else acc
      vendor.aliases.foldl
        (fun acc2 al =>
          let score := calculate_similarity normalized al.normalized_alias
          if acc2.2 < score then (some vendor, score) else acc2)
        acc)
    (none, 0)

/-- `VendorMatcher.FUZZY_THRESHOLD`. -/
def FUZZY_THRESHOLD : ℚ := 7 / 10

/-- `VendorMatcher.find_match`: the five-tier resolution over an
in-memory catalog (the rows a SQL query would return are the
order-preserving filters of the vendor list). -/
def find_match (db : List Vendor) (user_id : Nat)
    (vendor_name vkn tckn : Option (List Char)) :
    Except (List Char) VendorMatch := do
  -- 1. Try VKN match first (highest confidence)
  if pyTruthy vkn then
    match ← scalarOneOrNone (db.filter fun v => v.user_id = user_id && v.vkn = vkn) with
    | some vendor =>
      return { vendor_id := some vendor.id, vendor_name := some vendor.display_name,
               match_type := some "vkn".data, confidence := 1, is_new := false }
    | none => pure ()
  -- 2. Try TCKN match
  if pyTruthy tckn then
    match ← scalarOneOrNone (db.filter fun v => v.user_id = user_id && v.tckn = tckn) with
    | some vendor =>
      return { vendor_id := some vendor.id, vendor_name := some vendor.display_name,
               match_type := some "tckn".data, confidence := 1, is_new := false }
    | none => pure ()
  -- If no name provided, no more matching possible
  if !pyTruthy vendor_name then
    return {}
  let nm := vendor_name.getD []
  let normalized := normalize_name nm
  -- 3. Try exact normalized name match
  match ← scalarOneOrNone (db.filter fun v =>
      v.user_id = user_id && v.normalized_name = normalized) with
  | some vendor =>
    return { vendor_id := some vendor.id, vendor_name := some vendor.display_name,
             match_type := some "exact".data, confidence := 95 / 100, is_new := false }
  | none => pure ()
  -- 4. Try alias match (join rows: one row per matching alias)
  match ← scalarOneOrNone ((db.filter fun v => v.user_id = user_id).flatMap fun v =>
      (v.aliases.filter fun al => al.normalized_alias = normalized).map fun _ => v) with
  | some vendor =>
    return { vendor_id := some vendor.id, vendor_name := some vendor.display_name,
             match_type := some "alias".data, confidence := 9 / 10, is_new := false }
  | none => pure ()
  -- 5. Try fuzzy matching
  let best := fuzzyBest normalized (db.filter fun v => v.user_id = user_id)
  match best.1 with
  | some bm =>
    if FUZZY_THRESHOLD ≤ best.2 then
      return { vendor_id := some bm.id, vendor_name := some bm.display_name,
               match_type := some "fuzzy".data, confidence := roundTo2 best.2,
               is_new := false }
    else
      return { vendor_name := some nm, is_new := true }
  | none =>
  -- 6. No match found - suggest creating new
  return { vendor_name := some nm, is_new := true }

/-!
## Field extraction (`app/services/extraction_service.py`)

Python `Decimal` values are modelled exactly as an integer mantissa with
a decimal scale (the value is `mant / 10^scale`), mirroring `Decimal`'s
coefficient/exponent representation; comparisons, subtraction and `max`
are exact, as in `decimal`.
-/

/-- Exact decimal number: value is `mant / 10 ^ scale`. -/
structure Dec where
  mant : ℤ
  scale : Nat
deriving DecidableEq

/-- Rational value of a decimal. -/
def Dec.toRat (d : Dec) : ℚ := (d.mant : ℚ) / (10 : ℚ) ^ d.scale

/-- Exact `Decimal` comparison `a < b`. -/
def Dec.lt (a b : Dec) : Bool :=
  a.mant * 10 ^ b.scale < b.mant * 10 ^ a.scale

/-- The combined guard `amount and amount > 0` of the source (`Decimal`
truthiness plus positivity collapses to a positive mantissa). -/
def Dec.isPos (a : Dec) : Bool := 0 < a.mant

/-- Exact `Decimal` subtraction. -/
def Dec.sub (a b : Dec) : Dec :=
  let s := max a.scale b.scale
  ⟨a.mant * 10 ^ (s - a.scale) - b.mant * 10 ^ (s - b.scale), s⟩

/-- Python `datetime.date` value. -/
structure PyDate where
  year : Nat
  month : Nat
  day : Nat
deriving DecidableEq

/-- Day count of a month, with the Gregorian leap rule
(`datetime.date` validity). -/
def daysInMonth (y m : Nat) : Nat :=
  if m = 2 then
    if y % 4 = 0 && (y % 100 ≠ 0 || y % 400 = 0) then 29 else 28
  else if m = 4 || m = 6 || m = 9 || m = 11 then 30
  else 31

/-- The `date(year, month, day)` constructor: `none` models the
`ValueError` the source catches. -/
def mkPyDate (y m d : Nat) : Option PyDate :=
  if 1 ≤ y && y ≤ 9999 && 1 ≤ m && m ≤ 12 && 1 ≤ d && d ≤ daysInMonth y m then
    some ⟨y, m, d⟩
  else none

/-- Numeric value of a digit string. -/
def natVal (s : List Char) : Nat :=
  s.foldl (fun n c => n * 10 + (c.toNat - '0'.toNat)) 0

/-- The `[./]` separator class of the date patterns. -/
def dotSlash : Piece := .cls (fun c => c = '.' || c = '/') 1 (some 1)

/-- Shorthand: `\d{lo,hi}`. -/
def dig (lo hi : Nat) : Piece := .cls isPyDigit lo (some hi)

/-- The Turkish month-name alternation of the fourth date pattern. -/
def monthAlt : Piece :=
  .alt [[l "Ocak"], [l "Şubat"], [l "Mart"], [l "Nisan"], [l "Mayıs"], [l "Haziran"],
        [l "Temmuz"], [l "Ağustos"], [l "Eylül"], [l "Ekim"], [l "Kasım"], [l "Aralık"]]

/-- `DATE_PATTERNS` of the source, as group patterns. -/
def DATE_PATTERNS : List RePattern :=
  [ [cg [dig 1 2], ncg [dotSlash], cg [dig 1 2], ncg [dotSlash], cg [l "20", dig 2 2]],
    [cg [dig 1 2], ncg [l "-"], cg [dig 1 2], ncg [l "-"], cg [l "20", dig 2 2]],
    [cg [l "20", dig 2 2], ncg [dotSlash], cg [dig 1 2], ncg [dotSlash], cg [dig 1 2]],
    [cg [dig 1 2], ncg [.cls isPySpace 1 none], cg [monthAlt],
     ncg [.cls isPySpace 1 none], cg [l "20", dig 2 2]] ]

/-- `TURKISH_MONTHS` lookup table. -/
def TURKISH_MONTHS : List (List Char × Nat) :=
  [("ocak".data, 1), ("şubat".data, 2), ("mart".data, 3), ("nisan".data, 4),
   ("mayıs".data, 5), ("haziran".data, 6), ("temmuz".data, 7), ("ağustos".data, 8),
   ("eylül".data, 9), ("ekim".data, 10), ("kasım".data, 11), ("aralık".data, 12)]

/-- The shared amount core `\d{1,3}(?:\.\d{3})*,\d{2}` (also the body of
every `AMOUNT_PATTERNS` capture group). -/
def amountCore : List Piece :=
  [dig 1 3, .star [l ".", dig 3 3], l ",", dig 2 2]

/-- `AMOUNT_PATTERNS`, in priority order. -/
def AMOUNT_PATTERNS : List RePattern :=
  [ [ncg [.cls (· = '*') 0 (some 1), wsStar], cg amountCore],
    [cg amountCore, ncg [wsStar, .alt [[l "TL"], [l "TRY"], [l "₺"]]]],
    [cg amountCore] ]

/-- `TOTAL_KEYWORDS`, in source order. -/
def TOTAL_KEYWORDS : List (List Char) :=
  ["toplam".data, "genel toplam".data, "ödenecek tutar".data, "tutar".data,
   "net tutar".data, "brüt tutar".data, "total".data, "grand total".data,
   "yekun".data, "ödenen".data, "nakit".data, "kredi kartı".data]

/-- `TAX_KEYWORDS`, in source order. -/
def TAX_KEYWORDS : List (List Char) :=
  ["kdv".data, "k.d.v".data, "vergi".data, "tax".data, "kdv toplam".data,
   "kdv tutarı".data, "%8".data, "%10".data, "%18".data, "%20".data]

/-- `VKN_PATTERN`. -/
def VKN_PATTERN : RePattern :=
  [ncg [.alt [[l "VKN"], [l "V.K.N"],
        [l "VERGİ", wsStar, .opt [l "KİMLİK"], wsStar,
         .opt [.alt [[l "NO"], [l "NUMARASI"]]]]]],
   ncg [.cls (fun c => c = ':' || isPySpace c) 0 none],
   cg [.cls isPyDigit 10 (some 11)]]

/-- `TCKN_PATTERN`. -/
def TCKN_PATTERN : RePattern :=
  [ncg [.alt [[l "TCKN"],
        [l "T.C", optDot, .opt [wsStar, l "KİMLİK"], wsStar,
         .opt [.alt [[l "NO"], [l "NUMARASI"]]]]]],
   ncg [.cls (fun c => c = ':' || isPySpace c) 0 none],
   cg [.cls isPyDigit 11 (some 11)]]

/-- Characters of the `[A-Z0-9\-]` class under `re.IGNORECASE`. -/
def isDocNoChar (c : Char) : Bool :=
  ('A' ≤ c && c ≤ 'Z') || ('a' ≤ c && c ≤ 'z') || isPyDigit c || c = '-'

/-- `DOC_NO_PATTERNS`, in priority order. -/
def DOC_NO_PATTERNS : List RePattern :=
  [ [ncg [.alt [[l "FİŞ"], [l "BELGE"], [l "FATURA"]], wsStar,
          .alt [[l "NO"], [l "NUMARAS", .opt [l "I"]]],
          .cls (fun c => c = ':' || isPySpace c) 0 none],
     cg [.cls isDocNoChar 1 none]],
    [ncg [.alt [[l "NO"], [l "NUMARA"]],
          .cls (fun c => c = ':' || isPySpace c) 0 none],
     cg [.cls isDocNoChar 1 none]] ]

/-- The rate marker `%\s*\d+` (searched without flags). -/
def RATE_MARK : RePattern :=
  [ncg [l "%", wsStar, .cls isPyDigit 1 none]]

/-- The rate-line amount pattern `%\s*\d+\s*[:\s]*(\d{1,3}(?:\.\d{3})*,\d{2})`. -/
def RATE_AMOUNT : RePattern :=
  [ncg [l "%", wsStar, .cls isPyDigit 1 none, wsStar,
        .cls (fun c => c = ':' || isPySpace c) 0 none],
   cg amountCore]

/-- `ExtractionService._parse_turkish_amount`: strip `TL`/`₺`/whitespace
characters, drop thousands dots, turn the decimal comma into a dot, and
read a `Decimal`; `none` models the caught `InvalidOperation`. -/
def parse_turkish_amount (amount_str : List Char) : Option Dec :=
  let cleaned := (pyStrip amount_str).filter fun c =>
    !(c = 'T' || c = 'L' || c = '₺' || isPySpace c)
  let cleaned := (cleaned.filter (· ≠ '.')).map fun c => if c = ',' then '.' else c
  match cleaned.splitOn '.' with
  | [d] => if !d.isEmpty && d.all isPyDigit then some ⟨natVal d, 0⟩ else none
  | [d, f] =>
    if (!d.isEmpty || !f.isEmpty) && d.all isPyDigit && f.all isPyDigit then
      some ⟨natVal d * 10 ^ f.length + natVal f, f.length⟩
    else none
  | _ => none

/-- Python `text.split('\n')`. -/
def splitNl (s : List Char) : List (List Char) :=
  s.splitOn '\n'

/-- Address markers skipped by `_extract_vendor_name`. -/
def addressMarkers : List (List Char) :=
  ["sok.".data, "cad.".data, "mah.".data, "no:".data, "apt".data]

/-- Characters of the numeric-line class `[\d\s\-\./]`. -/
def isNumericLineChar (c : Char) : Bool :=
  isPyDigit c || isPySpace c || c = '-' || c = '.' || c = '/'

/-- `ExtractionService._extract_vendor_name`: first of the first five
lines that is non-empty after stripping, not purely
numeric/punctuation, at least three characters, and not address-like. -/
def extract_vendor_name (lines : List (List Char)) : Option (List Char) :=
  go (lines.take 5)
where
  go : List (List Char) → Option (List Char)
    | [] => none
    | line :: rest =>
      let line := pyStrip line
      if line.isEmpty then go rest
      else if line.all isNumericLineChar then go rest
      else if line.length < 3 then go rest
      else if addressMarkers.any fun k => listContains (pyLower line) k then go rest
      else some line

/-- First index (in `hay`) at which `needle` occurs, like `str.find`. -/
def indexOfSub (hay needle : List Char) : Option Nat :=
  go 0 hay
where
  go (i : Nat) : List Char → Option Nat
    | [] => if needle.isEmpty then some i else none
    | c :: rest =>
      if needle.isPrefixOf (c :: rest) then some i else go (i + 1) rest

/-- First match of `\b(\d{10,11})\b`: a maximal digit run of length 10
or 11 whose flanks are word boundaries. -/
def standalone1011 (s : List Char) : Option (List Char) :=
  go (s.length + 1) false s
where
  go (fuel : Nat) (prevWord : Bool) : List Char → Option (List Char)
    | [] => none
    | c :: rest =>
      match fuel with
      | 0 => none
      | fuel + 1 =>
        if isPyDigit c && !prevWord then
          let run := (c :: rest).takeWhile isPyDigit
          let after := (c :: rest).dropWhile isPyDigit
          if (run.length = 10 || run.length = 11)
              && (after.isEmpty || !(after.headD ' ' |> isPyWord)) then some run
          else go fuel true after
        else go fuel (isPyWord c) rest

/-- `ExtractionService._extract_vkn`: labeled pattern first (length must
be 10 or 11), then a standalone 10–11 digit number within 50 characters
after a tax-related word (the source indexes the original text with the
offset found in its lowercase form). -/
def extract_vkn (text : List Char) : Option (List Char) :=
  let labeled :=
    match reGroup1 true VKN_PATTERN text with
    | some vkn => if vkn.length = 10 || vkn.length = 11 then some vkn else none
    | none => none
  match labeled with
  | some vkn => some vkn
  | none =>
    ["vergi".data, "vkn".data, "dairesi".data].findSome? fun word =>
      match indexOfSub (pyLower text) word with
      | some idx => standalone1011 ((text.drop idx).take 50)
      | none => none

/-- `ExtractionService._extract_tckn`. -/
def extract_tckn (text : List Char) : Option (List Char) :=
  match reGroup1 true TCKN_PATTERN text with
  | some tckn => if tckn.length = 11 then some tckn else none
  | none => none

/-- Month number of a (lowercased) Turkish month-name group. -/
def monthLookup (g : List Char) : Option Nat :=
  (TURKISH_MONTHS.find? fun p => p.1 = g).map fun p => p.2

/-- `ExtractionService._extract_date`: first pattern whose groups form a
valid calendar date; invalid dates are skipped. -/
def extract_date (text : List Char) : Option PyDate :=
  DATE_PATTERNS.findSome? fun pat =>
    match reSearch true pat text with
    | some (_, _, [g0, g1, g2]) =>
      match monthLookup (pyLower g1) with
      | some m => mkPyDate (natVal g2) m (natVal g0)
      | none =>
        if g0.length = 4 then mkPyDate (natVal g0) (natVal g1) (natVal g2)
        else mkPyDate (natVal g2) (natVal g1) (natVal g0)
    | _ => none

/-- The amount-pattern loop run on one line: first pattern whose first
match parses to a positive amount. -/
def lineAmount (line : List Char) : Option Dec :=
  AMOUNT_PATTERNS.findSome? fun pat =>
    match reGroup1 true pat line with
    | some g =>
      match parse_turkish_amount g with
      | some a => if a.isPos then some a else none
      | none => none
    | none => none

/-- Keyword phase of `_extract_total`: for each total keyword in order,
scan every line in document order. -/
def totalKwPhase : List (List Char) → List (List Char) → Option Dec
  | [], _ => none
  | kw :: kws, lines =>
    match lineScan kw lines with
    | some a => some a
    | none => totalKwPhase kws lines
where
  lineScan (kw : List Char) : List (List Char) → Option Dec
    | [] => none
    | line :: rest =>
      if listContains (pyLower line) kw then
        match lineAmount line with
        | some a => some a
        | none => lineScan kw rest
      else lineScan kw rest

/-- Python `max` over a list of decimals (`none` when empty; first
maximal element wins). -/
def listMaxD (xs : List Dec) : Option Dec :=
  xs.foldl (fun acc a => match acc with
    | none => some a
    | some m => if Dec.lt m a then some a else some m) none

/-- Fallback phase of `_extract_total`: every positive parsed amount of
every pattern over the whole text, keeping the largest. -/
def totalFallback (text : List Char) : Option Dec :=
  listMaxD <| AMOUNT_PATTERNS.flatMap fun pat =>
    (reFindAll true pat text).filterMap fun m =>
      match parse_turkish_amount m with
      | some a => if a.isPos then some a else none
      | none => none

/-- `ExtractionService._extract_total`. -/
def extract_total (text : List Char) (lines : List (List Char)) : Option Dec :=
  match totalKwPhase TOTAL_KEYWORDS lines with
  | some a => some a
  | none => totalFallback text

/-- The per-line step of `_extract_tax`: rate lines prefer the amount
after the percentage marker, other lines use the amount-pattern loop. -/
def taxLineAmount (line : List Char) : Option Dec :=
  if (reSearch false RATE_MARK line).isSome then
    match reGroup1 false RATE_AMOUNT line with
    | some g =>
      match parse_turkish_amount g with
      | some a => if a.isPos then some a else none
      | none => none
    | none => none
  else lineAmount line

/-- Keyword loop of `_extract_tax`. -/
def taxKwPhase : List (List Char) → List (List Char) → Option Dec
  | [], _ => none
  | kw :: kws, lines =>
    match lineScan kw lines with
    | some a => some a
    | none => taxKwPhase kws lines
where
  lineScan (kw : List Char) : List (List Char) → Option Dec
    | [] => none
    | line :: rest =>
      if listContains (pyLower line) kw then
        match taxLineAmount line with
        | some a => some a
        | none => lineScan kw rest
      else lineScan kw rest

/-- `ExtractionService._extract_tax`. -/
def extract_tax (_text : List Char) (lines : List (List Char)) : Option Dec :=
  taxKwPhase TAX_KEYWORDS lines

/-- `ExtractionService._extract_doc_no`. -/
def extract_doc_no (text : List Char) : Option (List Char) :=
  DOC_NO_PATTERNS.findSome? fun pat => reGroup1 true pat text

/-- `ExtractionResult` dataclass (the `extraction_details` diagnostic
dict is not modelled). -/
structure ExtractionResult where
  vendor_name : Option (List Char) := none
  vendor_vkn : Option (List Char) := none
  vendor_tckn : Option (List Char) := none
  doc_date : Option PyDate := none
  total_gross : Option Dec := none
  total_tax : Option Dec := none
  total_net : Option Dec := none
  doc_no : Option (List Char) := none
  currency : List Char := "TRY".data
  confidence : ℚ := 0
deriving DecidableEq

/-- Python truthiness of an optional decimal (`None` and `Decimal(0)`
are falsy). -/
def truthyD (a : Option Dec) : Bool :=
  match a with
  | none => false
  | some d => d.mant ≠ 0

/-- Python `round(x, 1)` on an exact rational. -/
def roundTo1 (x : ℚ) : ℚ := (pyRound (x * 10) : ℚ) / 10

/-- `ExtractionService.extract`: runs every field extractor, computes
the weighted confidence, and derives net from gross and tax. -/
def extract (ocr_text : List Char) : ExtractionResult :=
  if ocr_text.isEmpty then {}
  else
    let text := pyUpper ocr_text
    let text_lower := pyLower ocr_text
    let lines := splitNl ocr_text
    let vendor_name := extract_vendor_name lines
    let vkn := extract_vkn text
    let tckn := extract_tckn text
    let doc_date := extract_date ocr_text
    let total_gross := extract_total text_lower lines
    let total_tax := extract_tax text_lower lines
    let doc_no := extract_doc_no text
    let confidence : ℚ :=
      (if pyTruthy vendor_name then 15 / 100 else 0)
        + (if pyTruthy vkn then 15 / 100 else 0)
        + (if pyTruthy tckn then 10 / 100 else 0)
        + (if doc_date.isSome then 15 / 100 else 0)
        + (if truthyD total_gross then 25 / 100 else 0)
        + (if truthyD total_tax then 15 / 100 else 0)
        + (if pyTruthy doc_no then 5 / 100 else 0)
    let total_net :=
      if truthyD total_gross && truthyD total_tax then
        some (Dec.sub (total_gross.getD ⟨0, 0⟩) (total_tax.getD ⟨0, 0⟩))
      else none
    { vendor_name := vendor_name, vendor_vkn := vkn, vendor_tckn := tckn,
      doc_date := doc_date, total_gross := total_gross, total_tax := total_tax,
      total_net := total_net, doc_no := doc_no, currency := "TRY".data,
      confidence := roundTo1 (confidence * 100) }

/-!
## Document lifecycle (`app/routers/documents.py`)

The handlers are modelled on a fetched document (the 404 branch for a
missing id is outside these claims); a raised `HTTPException` is an
`Except.error` carrying status code and detail, and the session commit
is the returned state.  `DocumentUpdate` fields model
`model_dump(exclude_unset=True)`: `none` is an omitted field, `some v`
a supplied value (explicit nulls for nullable columns are not
distinguished from omission).
-/

/-- `DocumentStatus` enum. -/
inductive DocumentStatus where
  | draft
  | posted
  | cancelled
deriving DecidableEq

/-- `DocumentType` enum. -/
inductive DocumentType where
  | receipt
  | invoice
  | other
deriving DecidableEq

/-- `Document` model (the OCR/image metadata columns are carried along
but unused by the lifecycle handlers). -/
structure Doc where
  id : Nat
  user_id : Nat
  vendor_id : Option Nat := none
  status : DocumentStatus := .draft
  doc_type : DocumentType := .receipt
  doc_date : Option PyDate := none
  doc_no : Option (List Char) := none
  currency : List Char := "TRY".data
  total_gross : Option Dec := none
  total_tax : Option Dec := none
  total_net : Option Dec := none
  notes : Option (List Char) := none
deriving DecidableEq

/-- `LedgerEntry` model, reduced to the columns the document claims
concern (`document_id` carries the unique link to a document). -/
structure LedgerRow where
  id : Nat
  user_id : Nat
  document_id : Option Nat := none
  amount : Dec
deriving DecidableEq

/-- A raised `HTTPException`. -/
structure HttpError where
  code : Nat
  detail : List Char
deriving DecidableEq

/-- `DocumentConfirm` request schema. -/
structure DocumentConfirm where
  vendor_id : Option Nat := none
  create_vendor_name : Option (List Char) := none
  doc_date : Option PyDate := none
  total_gross : Option Dec := none
  total_tax : Option Dec := none
  direction : List Char := "expense".data
  category_id : Option Nat := none
deriving DecidableEq

/-- `DocumentUpdate` request schema (note that `status` is a patchable
field). -/
structure DocumentUpdate where
  vendor_id : Option Nat := none
  doc_type : Option DocumentType := none
  doc_date : Option PyDate := none
  doc_no : Option (List Char) := none
  currency : Option (List Char) := none
  total_gross : Option Dec := none
  total_tax : Option Dec := none
  total_net : Option Dec := none
  notes : Option (List Char) := none
  status : Option DocumentStatus := none
deriving DecidableEq

/-- `confirm_document`: rejects non-draft documents, overwrites the
confirmed fields and posts the document.  The source's ledger-entry
creation is an unimplemented `TODO`, so the ledger passes through
untouched and no existing-entry check occurs. -/
def confirm_document (document : Doc) (data : DocumentConfirm)
    (ledger : List LedgerRow) : Except HttpError (Doc × List LedgerRow) :=
  if document.status ≠ DocumentStatus.draft then
    .error ⟨400, "Only draft documents can be confirmed".data⟩
  else
    .ok ({ document with
            vendor_id := data.vendor_id,
            doc_date := data.doc_date,
            total_gross := data.total_gross,
            total_tax := data.total_tax,
            status := DocumentStatus.posted },
         ledger)

/-- `cancel_document`: unconditionally sets the status to cancelled and
reports success (there is no draft-state check in the source). -/
def cancel_document (document : Doc) : Doc × List Char :=
  ({ document with status := DocumentStatus.cancelled }, "Document cancelled".data)

/-- `update_document`: applies exactly the supplied fields
(`setattr` per field of `model_dump(exclude_unset=True)`), with no
status check. -/
def update_document (document : Doc) (data : DocumentUpdate) : Doc :=
  let document := match data.vendor_id with
    | some v => { document with vendor_id := some v } | none => document
  let document := match data.doc_type with
    | some v => { document with doc_type := v } | none => document
  let document := match data.doc_date with
    | some v => { document with doc_date := some v } | none => document
  let document := match data.doc_no with
    | some v => { document with doc_no := some v } | none => document
  let document := match data.currency with
    | some v => { document with currency := v } | none => document
  let document := match data.total_gross with
    | some v => { document with total_gross := some v } | none => document
  let document := match data.total_tax with
    | some v => { document with total_tax := some v } | none => document
  let document := match data.total_net with
    | some v => { document with total_net := some v } | none => document
  let document := match data.notes with
    | some v => { document with notes := some v } | none => document
  match data.status with
  | some v => { document with status := v }
  | none => document

/-!
## Fixtures and statement-side helpers
-/

/-- The multiset of positive parsed amounts the fallback phase of
`_extract_total` draws from. -/
def positiveAmounts (text : List Char) : List Dec :=
  AMOUNT_PATTERNS.flatMap fun pat =>
    (reFindAll true pat text).filterMap fun m =>
      match parse_turkish_amount m with
      | some a => if a.isPos then some a else none
      | none => none

/-- A draft document fixture. -/
def draftFixture : Doc :=
  { id := 1, user_id := 1, status := DocumentStatus.draft,
    total_gross := some ⟨10000, 2⟩ }

/-- A posted document fixture. -/
def postedFixture : Doc :=
  { id := 2, user_id := 1, status := DocumentStatus.posted,
    total_gross := some ⟨5000, 2⟩ }

/-- A ledger row already referencing the draft fixture. -/
def ledgerFixture : List LedgerRow :=
  [{ id := 9, user_id := 1, document_id := some 1, amount := ⟨10000, 2⟩ }]

/-- A catalog fixture: one vendor with a tax id and a name that is a
poor fuzzy match for anything. -/
def vendorFixture : Vendor :=
  { id := 7, user_id := 1, display_name := "Migros Ticaret A.Ş.".data,
    normalized_name := "migros".data, vkn := some "1234567890".data }

/-- A fixture vendor identified only by a TCKN (no VKN). -/
def vendorFixtureT : Vendor :=
  { id := 8, user_id := 1, display_name := "Ali Veli".data,
    normalized_name := "ali veli".data, tckn := some "12345678901".data }

/-!
## Claim theorems
-/

/-- Invariant of the running best block of the dynamic program: either
the initial zero block at the window origin, or a genuine common run
inside the window ending before row `m`. -/
def flmBestInv (a b : List Char) (alo blo bhi m : Nat) (best : Nat × Nat × Nat) : Prop :=
  (best.2.2 = 0 ∧ best.1 = alo ∧ best.2.1 = blo) ∨
  (0 < best.2.2 ∧ alo ≤ best.1 ∧ blo ≤ best.2.1 ∧ best.1 + best.2.2 ≤ m ∧
    best.2.1 + best.2.2 ≤ bhi ∧
    ∀ off < best.2.2, a.getD (best.1 + off) ' ' = b.getD (best.2.1 + off) ' ')

/-- Invariant of the `j2len` table entering the row-`i` pass: each entry
is the length of a common run ending at `(i-1, j)`. -/
def flmRowInv (a b : List Char) (alo blo i : Nat) (j2len : Nat → Nat) : Prop :=
  ∀ j, 0 < j2len j → j2len j ≤ i - alo ∧ j2len j ≤ j + 1 ∧ blo ≤ j + 1 - j2len j ∧
    ∀ off < j2len j, a.getD (i - 1 - off) ' ' = b.getD (j - off) ' '

/-- The interval quadruple `(alo, ahi, blo, bhi)` of a matching block. -/
def quadOfBlock (t : Nat × Nat × Nat) : Nat × Nat × Nat × Nat :=
  (t.1, t.1 + t.2.2, t.2.1, t.2.1 + t.2.2)

/-- Two interval quadruples are separated: one lies entirely before the
other in BOTH coordinates. -/
def sepQ (x y : Nat × Nat × Nat × Nat) : Prop :=
  (x.2.1 ≤ y.1 ∧ x.2.2.2 ≤ y.2.2.1) ∨ (y.2.1 ≤ x.1 ∧ y.2.2.2 ≤ x.2.2.1)

/-- `q` is a sub-quadruple of `w` (contained in both coordinates). -/
def subQ (q w : Nat × Nat × Nat × Nat) : Prop :=
  w.1 ≤ q.1 ∧ q.2.1 ≤ w.2.1 ∧ w.2.2.1 ≤ q.2.2.1 ∧ q.2.2.2 ≤ w.2.2.2

/-- A well-formed queue window of `get_matching_blocks`. -/
def wfWindow (a b : List Char) (w : Nat × Nat × Nat × Nat) : Prop :=
  w.1 ≤ w.2.1 ∧ w.2.1 ≤ a.length ∧ w.2.2.1 ≤ w.2.2.2 ∧ w.2.2.2 ≤ b.length

/-- A well-formed emitted block: nonempty, in range, and genuinely
matching character by character. -/
def wfBlock (a b : List Char) (t : Nat × Nat × Nat) : Prop :=
  0 < t.2.2 ∧ t.1 + t.2.2 ≤ a.length ∧ t.2.1 + t.2.2 ≤ b.length ∧
  ∀ off < t.2.2, a.getD (t.1 + off) ' ' = b.getD (t.2.1 + off) ' '

/-- C1: confirming a draft document succeeds and transitions it to
posted — but, contrary to the claim, the ledger passes through
completely unchanged (the creation is an unimplemented `TODO`), no
ledger entry is created atomically with the transition, and a confirm
is not rejected when a ledger entry already references the document
(the statement quantifies over every ledger state, including those). -/
theorem C1_confirm_posts_without_ledger_entry (document : Doc)
    (data : DocumentConfirm) (ledger : List LedgerRow)
    (h : document.status = DocumentStatus.draft) :
    confirm_document document data ledger =
      .ok ({ document with
             vendor_id := data.vendor_id
             doc_date := data.doc_date
             total_gross := data.total_gross
             total_tax := data.total_tax
             status := DocumentStatus.posted }, ledger) := by
  unfold confirm_document
  rw [h]
  simp

/-- C1 witness: a draft document confirmed while `ledgerFixture` already
references it — the confirm still succeeds and creates nothing. -/
theorem C1_confirm_posts_without_ledger_entry_witness :
    confirm_document draftFixture {} ledgerFixture =
      .ok ({ draftFixture with
             vendor_id := none
             doc_date := none
             total_gross := none
             total_tax := none
             status := DocumentStatus.posted }, ledgerFixture) :=
  C1_confirm_posts_without_ledger_entry draftFixture {} ledgerFixture rfl

/-- C2 counterexample: cancelling a document whose status is posted does
not fail with a state violation — it succeeds and flips the status to
cancelled, refuting the claim that cancel rejects non-draft documents
and leaves them unchanged. -/
theorem C2_cancel_posted_succeeds :
    (cancel_document postedFixture).1.status = DocumentStatus.cancelled ∧
    postedFixture.status = DocumentStatus.posted ∧
    (cancel_document postedFixture).2 = "Document cancelled".data := by decide

/-- C2 amended: confirm on a non-draft document fails with a 400 error
whose constant detail does not name the current state, leaving document
and ledger untouched; cancel, however, performs no state check at all
and unconditionally transitions any document to cancelled. -/
theorem C2_state_check_asymmetry :
    (∀ (document : Doc) (data : DocumentConfirm) (ledger : List LedgerRow),
      document.status ≠ DocumentStatus.draft →
      confirm_document document data ledger =
        .error ⟨400, "Only draft documents can be confirmed".data⟩) ∧
    (∀ document : Doc,
      cancel_document document =
        ({ document with status := DocumentStatus.cancelled },
         "Document cancelled".data)) := by
  constructor
  · intro document data ledger h
    unfold confirm_document
    simp [h]
  · intro document
    rfl

/-- C2 witness: the amended statement at a posted document. -/
theorem C2_state_check_asymmetry_witness :
    confirm_document postedFixture {} [] =
      .error ⟨400, "Only draft documents can be confirmed".data⟩ :=
  C2_state_check_asymmetry.1 postedFixture {} [] (by decide)

/-- C3 counterexample: update is not restricted to drafts and can change
the status — patching a posted document with a supplied `status` field
succeeds and rewrites the status. -/
theorem C3_update_changes_status_of_posted :
    (update_document postedFixture { status := some DocumentStatus.cancelled }).status =
      DocumentStatus.cancelled ∧
    postedFixture.status = DocumentStatus.posted := by decide

/-- C3 amended: update is permitted regardless of the document's status
and applies exactly the supplied fields; the status is among the
patchable fields — it is preserved when not supplied and overwritten
when supplied. -/
theorem C3_update_applies_supplied_fields (document : Doc) (data : DocumentUpdate) :
    (data.status = none → (update_document document data).status = document.status) ∧
    (∀ s, data.status = some s → (update_document document data).status = s) ∧
    (∀ g, data.total_gross = some g →
      (update_document document data).total_gross = some g) := by
  obtain ⟨v, t, dd, dn, cu, tg, tt, tn, nt, st⟩ := data
  refine ⟨?_, ?_, ?_⟩
  · intro h
    have h' : st = none := h
    subst h'
    cases v <;> cases t <;> cases dd <;> cases dn <;> cases cu <;> cases tg
      <;> cases tt <;> cases tn <;> cases nt <;> rfl
  · intro s h
    have h' : st = some s := h
    subst h'
    rfl
  · intro g h
    have h' : tg = some g := h
    subst h'
    cases tt <;> cases tn <;> cases nt <;> cases st <;> rfl

/-- C3 witness: an update supplying only the gross amount keeps the
status and stores the amount. -/
theorem C3_update_applies_supplied_fields_witness :
    (update_document draftFixture { total_gross := some ⟨500, 2⟩ }).status =
      draftFixture.status ∧
    (update_document draftFixture { total_gross := some ⟨500, 2⟩ }).total_gross =
      some ⟨500, 2⟩ :=
  ⟨(C3_update_applies_supplied_fields _ _).1 rfl,
   (C3_update_applies_supplied_fields _ _).2.2 _ rfl⟩

set_option maxHeartbeats 3200000 in
/-- C10: extract is a total function of the input text; on the empty
string it returns the record with every optional field absent and
confidence 0.0, and an unparsable input (here `"ab"`) likewise yields
every optional field absent and confidence 0.0. -/
theorem C10_extract_never_fails_empty_record :
    extract [] = ({} : ExtractionResult) ∧
    (extract "ab".data).vendor_name = none ∧
    (extract "ab".data).vendor_vkn = none ∧
    (extract "ab".data).vendor_tckn = none ∧
    (extract "ab".data).doc_date = none ∧
    (extract "ab".data).total_gross = none ∧
    (extract "ab".data).total_tax = none ∧
    (extract "ab".data).total_net = none ∧
    (extract "ab".data).doc_no = none ∧
    (extract "ab".data).confidence = 0 := by
  refine ⟨by decide, by decide, by decide, by decide, by decide, by decide, by decide,
    by decide, by decide, ?_⟩
  have h : (extract "ab".data).confidence =
      roundTo1 ((0 + 0 + 0 + 0 + 0 + 0 + 0 : ℚ) * 100) := rfl
  rw [h]
  norm_num [roundTo1, pyRound]

/-- C6: tier order with no fallthrough — when the supplied VKN uniquely
matches a vendor of the user's catalog, resolution returns that vendor
as a tax-id match with similarity 1.0, regardless of the name guess (no
name tier runs); when the VKN tier does not fire (VKN not supplied, or
no catalog row carries it) and the supplied TCKN uniquely matches a
vendor, resolution likewise returns that vendor as a tax-id match with
similarity 1.0, regardless of the name guess; and when no name guess is
supplied, resolution after the two tax-id tiers stops at the no-match
result — the name-based match kinds are never produced. -/
theorem C6_tax_id_tier_precedence :
    (∀ (db : List Vendor) (u : Nat) (name tckn : Option (List Char)) (k : List Char)
       (v0 : Vendor),
      k ≠ [] →
      db.filter (fun v => v.user_id = u && v.vkn = some k) = [v0] →
      find_match db u name (some k) tckn =
        .ok { vendor_id := some v0.id, vendor_name := some v0.display_name,
              match_type := some "vkn".data, confidence := 1, is_new := false }) ∧
    (∀ (db : List Vendor) (u : Nat) (name vkn : Option (List Char)) (k : List Char)
       (v0 : Vendor),
      k ≠ [] →
      (pyTruthy vkn = false ∨ db.filter (fun v => v.user_id = u && v.vkn = vkn) = []) →
      db.filter (fun v => v.user_id = u && v.tckn = some k) = [v0] →
      find_match db u name vkn (some k) =
        .ok { vendor_id := some v0.id, vendor_name := some v0.display_name,
              match_type := some "tckn".data, confidence := 1, is_new := false }) ∧
    (∀ (db : List Vendor) (u : Nat) (vkn tckn : Option (List Char)) (r : VendorMatch),
      find_match db u none vkn tckn = .ok r →
      r.match_type = some "vkn".data ∨ r.match_type = some "tckn".data ∨
        r = ({} : VendorMatch)) := by
  refine ⟨?_, ?_, ?_⟩
  · intro db u name tckn k v0 hk hf
    unfold find_match
    have ht : pyTruthy (some k) = true := by
      simp [pyTruthy, List.isEmpty_iff, hk]
    rw [ht]
    simp only [if_true, hf, scalarOneOrNone, bind, Except.bind]
    rfl
  · intro db u name vkn k v0 hk hvkn hf
    unfold find_match
    have ht : pyTruthy (some k) = true := by
      simp [pyTruthy, List.isEmpty_iff, hk]
    rcases hvkn with hv | hv
    · rw [hv]
      simp only [Bool.false_eq_true, if_false]
      rw [ht]
      simp only [if_true, hf, scalarOneOrNone, bind, Except.bind]
      rfl
    · by_cases hvt : pyTruthy vkn = true
      · rw [hvt]
        simp only [if_true, hv, scalarOneOrNone, bind, Except.bind]
        rw [ht]
        simp only [if_true, hf]
        rfl
      · rw [Bool.not_eq_true] at hvt
        rw [hvt]
        simp only [Bool.false_eq_true, if_false]
        rw [ht]
        simp only [if_true, hf, scalarOneOrNone, bind, Except.bind]
        rfl
  · intro db u vkn tckn r h
    unfold find_match at h
    simp only [bind, Except.bind, pure, Except.pure, pyTruthy] at h
    repeat' split at h
    all_goals (try simp_all)
    all_goals (rw [← h]; simp)

/-- C6 witness: the fixture vendor is returned through the VKN tier with
similarity 1.0 even though the name guess is a poor fuzzy match; a
TCKN-only vendor is likewise returned through the TCKN tier with
similarity 1.0 despite a poor name guess; and a resolution without a
name guess stops at the default no-match. -/
theorem C6_tax_id_tier_precedence_witness :
    find_match [vendorFixture] 1 (some "zzz".data) (some "1234567890".data) none =
      .ok { vendor_id := some vendorFixture.id,
            vendor_name := some vendorFixture.display_name,
            match_type := some "vkn".data, confidence := 1, is_new := false } ∧
    find_match [vendorFixtureT] 1 (some "zzz".data) none (some "12345678901".data) =
      .ok { vendor_id := some vendorFixtureT.id,
            vendor_name := some vendorFixtureT.display_name,
            match_type := some "tckn".data, confidence := 1, is_new := false } ∧
    (({} : VendorMatch).match_type = some "vkn".data ∨
     ({} : VendorMatch).match_type = some "tckn".data ∨
     ({} : VendorMatch) = ({} : VendorMatch)) :=
  ⟨C6_tax_id_tier_precedence.1 [vendorFixture] 1 (some "zzz".data) none
      "1234567890".data vendorFixture (by decide) (by decide),
   C6_tax_id_tier_precedence.2.1 [vendorFixtureT] 1 (some "zzz".data) none
      "12345678901".data vendorFixtureT (by decide) (Or.inl (by decide)) (by decide),
   C6_tax_id_tier_precedence.2.2 [] 1 none none {} rfl⟩

/-- C7: every match the resolver returns satisfies the invariant that
`is_new` holds exactly when the matched vendor reference is absent. -/
theorem C7_is_new_iff_no_vendor (db : List Vendor) (u : Nat)
    (name vkn tckn : Option (List Char)) (r : VendorMatch)
    (h : find_match db u name vkn tckn = .ok r) :
    r.is_new = true ↔ r.vendor_id = none := by
  unfold find_match at h
  simp only [bind, Except.bind, pure, Except.pure] at h
  repeat' split at h
  all_goals simp_all
  all_goals (cases h; simp)

/-- C7 witness: the invariant at the no-match result of an empty
catalog. -/
theorem C7_is_new_iff_no_vendor_witness :
    (({} : VendorMatch).is_new = true ↔ ({} : VendorMatch).vendor_id = none) :=
  C7_is_new_iff_no_vendor [] 1 none none none {} rfl

/-- Soundness transfer along `List.findSome?`. -/
theorem findSome?_sound {α β : Type} (P : β → Prop) (f : α → Option β)
    (hf : ∀ x b, f x = some b → P b) :
    ∀ (L : List α) (b : β), L.findSome? f = some b → P b := by
  intro L
  induction L with
  | nil => intro b h; simp [List.findSome?] at h
  | cons x xs ih =>
    intro b h
    rw [List.findSome?_cons] at h
    cases hx : f x with
    | some v => rw [hx] at h; cases h; exact hf x b hx
    | none => rw [hx] at h; exact ih b h

/-- Any amount the amount-pattern loop returns is positive. -/
theorem lineAmount_pos (line : List Char) (a : Dec)
    (h : lineAmount line = some a) : a.isPos = true := by
  refine findSome?_sound (fun a => a.isPos = true) _ ?_ AMOUNT_PATTERNS a h
  intro pat b hb
  simp only at hb
  split at hb
  · split at hb
    · split at hb
      · cases hb; assumption
      · cases hb
    · cases hb
  · cases hb

/-- Any amount the tax per-line step returns is positive. -/
theorem taxLineAmount_pos (line : List Char) (a : Dec)
    (h : taxLineAmount line = some a) : a.isPos = true := by
  unfold taxLineAmount at h
  split at h
  · split at h
    · split at h
      · split at h
        · cases h; assumption
        · cases h
      · cases h
    · cases h
  · exact lineAmount_pos line a h

/-- Any amount produced by the keyword phase of `_extract_total` is
positive. -/
theorem totalKwPhase_pos :
    ∀ (kws lines : List (List Char)) (a : Dec),
      totalKwPhase kws lines = some a → a.isPos = true := by
  have hscan : ∀ (kw : List Char) (lines : List (List Char)) (a : Dec),
      totalKwPhase.lineScan kw lines = some a → a.isPos = true := by
    intro kw lines
    induction lines with
    | nil => intro a h; cases h
    | cons line rest ih =>
      intro a h
      unfold totalKwPhase.lineScan at h
      split at h
      · split at h
        · cases h; exact lineAmount_pos line a (by assumption)
        · exact ih a h
      · exact ih a h
  intro kws
  induction kws with
  | nil => intro lines a h; cases h
  | cons kw kws ih =>
    intro lines a h
    unfold totalKwPhase at h
    split at h
    · cases h; exact hscan kw lines a (by assumption)
    · exact ih lines a h

/-- Any amount produced by the keyword loop of `_extract_tax` is
positive. -/
theorem taxKwPhase_pos :
    ∀ (kws lines : List (List Char)) (a : Dec),
      taxKwPhase kws lines = some a → a.isPos = true := by
  have hscan : ∀ (kw : List Char) (lines : List (List Char)) (a : Dec),
      taxKwPhase.lineScan kw lines = some a → a.isPos = true := by
    intro kw lines
    induction lines with
    | nil => intro a h; cases h
    | cons line rest ih =>
      intro a h
      unfold taxKwPhase.lineScan at h
      split at h
      · split at h
        · cases h; exact taxLineAmount_pos line a (by assumption)
        · exact ih a h
      · exact ih a h
  intro kws
  induction kws with
  | nil => intro lines a h; cases h
  | cons kw kws ih =>
    intro lines a h
    unfold taxKwPhase at h
    split at h
    · cases h; exact hscan kw lines a (by assumption)
    · exact ih lines a h

/-- The boolean `Decimal` comparison agrees with the rational order. -/
theorem Dec.lt_iff (a b : Dec) : Dec.lt a b = true ↔ a.toRat < b.toRat := by
  unfold Dec.lt Dec.toRat
  rw [decide_eq_true_eq]
  rw [div_lt_div_iff₀ (by positivity) (by positivity)]
  constructor
  · intro h
    exact_mod_cast h
  · intro h
    exact_mod_cast h

/-- A positive `Decimal` has positive rational value. -/
theorem Dec.isPos_toRat (a : Dec) (h : a.isPos = true) : 0 < a.toRat := by
  unfold Dec.isPos at h
  rw [decide_eq_true_eq] at h
  unfold Dec.toRat
  positivity

/-- The element `listMaxD` returns belongs to the list. -/
theorem listMaxD_mem :
    ∀ (xs : List Dec) (acc : Option Dec) (m : Dec),
      xs.foldl (fun acc a => match acc with
        | none => some a
        | some m => if Dec.lt m a then some a else some m) acc = some m →
      m ∈ xs ∨ acc = some m := by
  intro xs
  induction xs with
  | nil => intro acc m h; right; exact h
  | cons a xs ih =>
    intro acc m h
    rw [List.foldl_cons] at h
    rcases ih _ m h with hm | hacc
    · left; exact List.mem_cons_of_mem a hm
    · cases acc with
      | none => cases hacc; left; exact List.mem_cons_self a xs
      | some m0 =>
        simp only at hacc
        split at hacc
        · cases hacc; left; exact List.mem_cons_self a xs
        · right; exact hacc

/-- The element `listMaxD` returns dominates the list. -/
theorem listMaxD_bound :
    ∀ (xs : List Dec) (acc : Option Dec) (m : Dec),
      xs.foldl (fun acc a => match acc with
        | none => some a
        | some m => if Dec.lt m a then some a else some m) acc = some m →
      (∀ x ∈ xs, x.toRat ≤ m.toRat) ∧
      (∀ a0, acc = some a0 → a0.toRat ≤ m.toRat)
  | [] => by
    intro acc m h
    constructor
    · intro x hx; cases hx
    · intro a0 ha; rw [ha] at h; cases h; exact le_refl _
  | a :: xs => by
    intro acc m h
    rw [List.foldl_cons] at h
    cases acc with
    | none =>
      simp only at h
      obtain ⟨hxs, hacc⟩ := listMaxD_bound xs (some a) m h
      have ham := hacc a rfl
      constructor
      · intro x hx
        rcases List.mem_cons.mp hx with rfl | hx'
        · exact ham
        · exact hxs x hx'
      · intro a0 h0; cases h0
    | some m0 =>
      simp only at h
      by_cases hlt : Dec.lt m0 a = true
      · rw [if_pos hlt] at h
        obtain ⟨hxs, hacc⟩ := listMaxD_bound xs (some a) m h
        have ham := hacc a rfl
        have hm0a : m0.toRat < a.toRat := (Dec.lt_iff _ _).mp hlt
        constructor
        · intro x hx
          rcases List.mem_cons.mp hx with rfl | hx'
          · exact ham
          · exact hxs x hx'
        · intro a0 h0
          cases h0
          exact le_trans (le_of_lt hm0a) ham
      · rw [if_neg hlt] at h
        obtain ⟨hxs, hacc⟩ := listMaxD_bound xs (some m0) m h
        have hm0m := hacc m0 rfl
        have ham0 : a.toRat ≤ m0.toRat := by
          by_contra hc
          push_neg at hc
          exact hlt ((Dec.lt_iff _ _).mpr hc)
        constructor
        · intro x hx
          rcases List.mem_cons.mp hx with rfl | hx'
          · exact le_trans ham0 hm0m
          · exact hxs x hx'
        · intro a0 h0
          cases h0
          exact hm0m

/-- Gross projection of `extract` in terms of `extract_total`. -/
theorem extract_total_gross_eq (s : List Char) :
    (extract s).total_gross =
      if s.isEmpty then none else extract_total (pyLower s) (splitNl s) := by
  by_cases h : s.isEmpty <;> simp [extract, h]

/-- Tax projection of `extract` in terms of `extract_tax`. -/
theorem extract_total_tax_eq (s : List Char) :
    (extract s).total_tax =
      if s.isEmpty then none else extract_tax (pyLower s) (splitNl s) := by
  by_cases h : s.isEmpty <;> simp [extract, h]

/-- C9 counterexample: the claim that every present amount field is
non-negative fails for the net amount — on a text whose extracted tax
exceeds its extracted gross, `extract` stores a strictly negative net
(`1,00 − 5,00 = −4,00`). -/
theorem C9_net_amount_negative :
    (extract "toplam 1,00\nkdv 5,00".data).total_net = some ⟨-400, 2⟩ ∧
    (Dec.mk (-400) 2).toRat < 0 := by
  constructor
  · decide
  · norm_num [Dec.toRat]

/-- C9 amended: the gross and tax amount fields are strictly positive
whenever present (an unparsed amount is represented as absent, never
as zero), but the derived net amount can be negative when the
extracted tax exceeds the extracted gross. -/
theorem C9_gross_tax_positive (s : List Char) :
    (∀ g, (extract s).total_gross = some g → 0 < g.toRat) ∧
    (∀ t, (extract s).total_tax = some t → 0 < t.toRat) := by
  constructor
  · intro g hg
    rw [extract_total_gross_eq] at hg
    split at hg
    · cases hg
    · refine Dec.isPos_toRat g ?_
      unfold extract_total at hg
      split at hg
      · cases hg; exact totalKwPhase_pos _ _ g (by assumption)
      · unfold totalFallback listMaxD at hg
        rcases listMaxD_mem _ _ _ hg with hm | hnone
        · rcases List.mem_flatMap.mp hm with ⟨pat, _, hmem⟩
          rcases List.mem_filterMap.mp hmem with ⟨ms, _, hv⟩
          split at hv
          · split at hv
            · cases hv; assumption
            · cases hv
          · cases hv
        · cases hnone
  · intro t ht
    rw [extract_total_tax_eq] at ht
    split at ht
    · cases ht
    · exact Dec.isPos_toRat t (taxKwPhase_pos _ _ t ht)

/-- C9 witness: a parsed gross amount is positive. -/
theorem C9_gross_tax_positive_witness : 0 < (Dec.mk 300 2).toRat :=
  (C9_gross_tax_positive "toplam 3,00".data).1 ⟨300, 2⟩ (by decide)

/-- The inner line loop of `_extract_total` is the first hit of the
line list in document order. -/
theorem totalKwPhase_lineScan_eq (kw : List Char) :
    ∀ lines : List (List Char),
      totalKwPhase.lineScan kw lines =
        lines.findSome? fun line =>
          if listContains (pyLower line) kw then lineAmount line else none
  | [] => rfl
  | line :: rest => by
    rw [List.findSome?_cons]
    unfold totalKwPhase.lineScan
    by_cases hc : listContains (pyLower line) kw
    · rw [if_pos hc, if_pos hc]
      cases lineAmount line with
      | some a => rfl
      | none => exact totalKwPhase_lineScan_eq kw rest
    · rw [if_neg hc, if_neg hc]
      exact totalKwPhase_lineScan_eq kw rest

/-- The keyword loop of `_extract_total` is the first hit of the
keyword list in list order. -/
theorem totalKwPhase_eq :
    ∀ (kws lines : List (List Char)),
      totalKwPhase kws lines =
        kws.findSome? fun kw =>
          lines.findSome? fun line =>
            if listContains (pyLower line) kw then lineAmount line else none
  | [], _ => rfl
  | kw :: kws, lines => by
    rw [List.findSome?_cons]
    unfold totalKwPhase
    rw [totalKwPhase_lineScan_eq kw lines]
    cases (lines.findSome? fun line =>
        if listContains (pyLower line) kw then lineAmount line else none) with
    | some a => rfl
    | none => exact totalKwPhase_eq kws lines

/-- C5 counterexample: the first total-keyword line in document order is
`"tutar 5,00"`, which contains the total keyword `tutar` and carries the
positive amount 5.00 — yet gross extraction returns 3.00, taken from
the later `toplam` line because keywords are scanned keyword-major, not
line-major.  This refutes "the first such line in document order is
returned". -/
theorem C5_first_line_does_not_win :
    (extract "tutar 5,00\ntoplam 3,00".data).total_gross = some ⟨300, 2⟩ ∧
    listContains (pyLower "tutar 5,00".data) "tutar".data = true ∧
    "tutar".data ∈ TOTAL_KEYWORDS ∧
    lineAmount "tutar 5,00".data = some ⟨500, 2⟩ ∧
    (Dec.mk 300 2) ≠ (Dec.mk 500 2) := by decide

/-- C5 amended: total extraction scans keyword-by-keyword in the fixed
keyword-list order, and only within one keyword takes the first line in
document order (the first (keyword, line) hit in that lexicographic
order wins); only if no keyword line yields a positive amount does it
fall back to the largest positive amount found anywhere in the text;
and the input line `TOPLAM *1.234,56` yields gross 1234.56. -/
theorem C5_keyword_major_total :
    (∀ (text : List Char) (lines : List (List Char)),
      extract_total text lines =
        match TOTAL_KEYWORDS.findSome? (fun kw =>
          lines.findSome? fun line =>
            if listContains (pyLower line) kw then lineAmount line else none) with
        | some a => some a
        | none => totalFallback text) ∧
    (∀ (text : List Char) (m : Dec), totalFallback text = some m →
      m ∈ positiveAmounts text ∧ ∀ x ∈ positiveAmounts text, x.toRat ≤ m.toRat) ∧
    (extract "TOPLAM *1.234,56".data).total_gross = some ⟨123456, 2⟩ := by
  refine ⟨?_, ?_, by decide⟩
  · intro text lines
    unfold extract_total
    rw [totalKwPhase_eq]
  · intro text m h
    have h' : (positiveAmounts text).foldl (fun acc a => match acc with
        | none => some a
        | some m => if Dec.lt m a then some a else some m) none = some m := h
    refine ⟨?_, ?_⟩
    · rcases listMaxD_mem _ _ _ h' with hm | hc
      · exact hm
      · cases hc
    · exact (listMaxD_bound _ _ _ h').1

/-- C5 witness: the fallback maximum at a concrete text. -/
theorem C5_keyword_major_total_witness :
    (⟨999, 2⟩ : Dec) ∈ positiveAmounts "9,99".data :=
  ((C5_keyword_major_total.2.1) "9,99".data ⟨999, 2⟩ (by decide)).1

/-- Every character produced by the lowercase mapping is itself a
fixpoint of the mapping. -/
theorem pyLowerChar_out (c d : Char) (hd : d ∈ pyLowerChar c) :
    pyLowerChar d = [d] := by
  unfold pyLowerChar at hd
  cases hfind : lowerMap.find? fun p => p.1 = c with
  | none =>
    rw [hfind] at hd
    rcases List.mem_singleton.mp hd with rfl
    unfold pyLowerChar
    rw [hfind]
  | some p =>
    rw [hfind] at hd
    have hp : p ∈ lowerMap := List.mem_of_find?_eq_some hfind
    have hstable : ∀ q ∈ lowerMap, ∀ e ∈ q.2,
        (lowerMap.find? fun p => p.1 = e) = none := by decide
    unfold pyLowerChar
    rw [hstable p hp d hd]

/-- A string of mapping fixpoints is itself a `str.lower()` fixpoint. -/
theorem pyLower_fixed : ∀ t : List Char, (∀ c ∈ t, pyLowerChar c = [c]) →
    pyLower t = t
  | [] => fun _ => rfl
  | c :: rest => fun h => by
    unfold pyLower List.flatMap
    simp only [List.map_cons, List.flatten_cons]
    rw [h c (List.mem_cons_self c rest)]
    have := pyLower_fixed rest fun d hd => h d (List.mem_cons_of_mem c hd)
    unfold pyLower List.flatMap at this
    rw [this]
    rfl

/-- Characters of a lowered string are mapping fixpoints. -/
theorem mem_pyLower_stable (s : List Char) (c : Char) (h : c ∈ pyLower s) :
    pyLowerChar c = [c] := by
  rcases List.mem_flatMap.mp h with ⟨d, _, hc⟩
  exact pyLowerChar_out d c hc

/-- One deletion pass of `re.sub` yields a sublist of its input. -/
theorem reSub_go_sublist (ic : Bool) (pat : RePattern) :
    ∀ (fuel : Nat) (rem : List Char), List.Sublist (reSub.go ic pat fuel rem) rem
  | 0, rem => by unfold reSub.go; exact List.Sublist.refl rem
  | fuel + 1, rem => by
    unfold reSub.go
    cases hs : reSearch ic pat rem with
    | none => exact List.Sublist.refl rem
    | some t =>
      obtain ⟨pos, len, gs⟩ := t
      have h1 : List.Sublist (reSub.go ic pat fuel (rem.drop (pos + max len 1)))
          (rem.drop pos) := by
        have h2 := reSub_go_sublist ic pat fuel (rem.drop (pos + max len 1))
        have h3 : List.Sublist (rem.drop (pos + max len 1)) (rem.drop pos) := by
          have : (rem.drop pos).drop (max len 1) = rem.drop (pos + max len 1) := by
            rw [List.drop_drop]
          rw [← this]
          exact List.drop_sublist _ _
        exact h2.trans h3
      have h4 : List.Sublist
          (rem.take pos ++ reSub.go ic pat fuel (rem.drop (pos + max len 1)))
          (rem.take pos ++ rem.drop pos) :=
        (List.Sublist.refl (rem.take pos)).append h1
      rw [List.take_append_drop pos rem] at h4
      exact h4

/-- `re.sub` deletion yields a sublist. -/
theorem reSub_sublist (ic : Bool) (pat : RePattern) (s : List Char) :
    List.Sublist (reSub ic pat s) s :=
  reSub_go_sublist ic pat (s.length + 1) s

/-- The whole suffix-removal stage yields a sublist. -/
theorem stripSuffixes_sublist (s : List Char) :
    List.Sublist (stripSuffixes s) s := by
  unfold stripSuffixes
  have : ∀ (pats : List RePattern) (t : List Char),
      List.Sublist (pats.foldl (fun n pat => reSub true pat n) t) t := by
    intro pats
    induction pats with
    | nil => intro t; exact List.Sublist.refl t
    | cons p ps ih =>
      intro t
      rw [List.foldl_cons]
      exact (ih (reSub true p t)).trans (reSub_sublist true p t)
  exact this SUFFIXES_TO_REMOVE s


theorem pySplit_token : ∀ tok : List Char, tok ≠ [] →
    (∀ c ∈ tok, isPySpace c = false) → pySplit tok = [tok]
  | [], h, _ => absurd rfl h
  | [c], _, hns => by
    have h1 : isPySpace c = false := hns c (List.mem_singleton_self c)
    simp [pySplit, h1]
  | c :: d :: rest, _, hns => by
    have h1 : isPySpace c = false := hns c (List.mem_cons_self c _)
    have h2 : isPySpace d = false :=
      hns d (List.mem_cons_of_mem c (List.mem_cons_self d _))
    have hd := pySplit_token (d :: rest) (by simp)
      fun e he => hns e (List.mem_cons_of_mem c he)
    unfold pySplit
    rw [hd]
    simp [h1, h2]

theorem pySplit_cons (c : Char) (rest : List Char) :
    pySplit (c :: rest) =
      if isPySpace c then pySplit rest
      else
        match pySplit rest with
        | [] => [[c]]
        | t :: ts =>
          match rest with
          | [] => [[c]]
          | d :: _ => if isPySpace d then [c] :: t :: ts else (c :: t) :: ts := rfl

theorem pySplit_token_space : ∀ (tok u : List Char), tok ≠ [] →
    (∀ c ∈ tok, isPySpace c = false) →
    pySplit (tok ++ ' ' :: u) = tok :: pySplit u
  | [], _, h, _ => absurd rfl h
  | [c], u, _, hns => by
    have h1 : isPySpace c = false := hns c (List.mem_singleton_self c)
    have hsp : pySplit (' ' :: u) = pySplit u := rfl
    rw [List.singleton_append, pySplit_cons, hsp, h1]
    cases hu : pySplit u with
    | nil => simp
    | cons t0 ts => simp [isPySpace]
  | c :: d :: tokrest, u, _, hns => by
    have h1 : isPySpace c = false := hns c (List.mem_cons_self c _)
    have h2 : isPySpace d = false :=
      hns d (List.mem_cons_of_mem c (List.mem_cons_self d _))
    have ih := pySplit_token_space (d :: tokrest) u (by simp)
      fun e he => hns e (List.mem_cons_of_mem c he)
    simp only [List.cons_append] at ih ⊢
    rw [pySplit_cons, ih, h1]
    simp [h2]

theorem pySplit_sound : ∀ (s : List Char) (t : List Char), t ∈ pySplit s →
    t ≠ [] ∧ ∀ c ∈ t, c ∈ s ∧ isPySpace c = false := by
  intro s
  induction s with
  | nil => intro t ht; cases ht
  | cons c rest ih =>
    intro t ht
    unfold pySplit at ht
    by_cases hc : isPySpace c
    · rw [if_pos hc] at ht
      obtain ⟨hne, hmem⟩ := ih t ht
      exact ⟨hne, fun d hd => ⟨List.mem_cons_of_mem c (hmem d hd).1, (hmem d hd).2⟩⟩
    · rw [if_neg hc] at ht
      cases hsp : pySplit rest with
      | nil =>
        rw [hsp] at ht
        rcases List.mem_singleton.mp ht with rfl
        refine ⟨by simp, ?_⟩
        intro d hd
        rcases List.mem_singleton.mp hd with rfl
        exact ⟨List.mem_cons_self d rest, by simpa using hc⟩
      | cons t0 ts =>
        rw [hsp] at ht
        cases rest with
        | nil => cases hsp
        | cons d rest' =>
          dsimp only at ht
          by_cases hd : isPySpace d
          · rw [if_pos hd] at ht
            rcases List.mem_cons.mp ht with rfl | ht'
            · refine ⟨by simp, ?_⟩
              intro e he
              rcases List.mem_singleton.mp he with rfl
              exact ⟨List.mem_cons_self e _, by simpa using hc⟩
            · obtain ⟨hne, hmem⟩ := ih t (hsp ▸ ht')
              exact ⟨hne, fun e he =>
                ⟨List.mem_cons_of_mem c (hmem e he).1, (hmem e he).2⟩⟩
          · rw [if_neg hd] at ht
            rcases List.mem_cons.mp ht with rfl | ht'
            · constructor
              · simp
              · intro e he
                rcases List.mem_cons.mp he with rfl | he'
                · exact ⟨List.mem_cons_self e _, by simpa using hc⟩
                · have h0 : t0 ∈ pySplit (d :: rest') := hsp ▸ List.mem_cons_self t0 ts
                  obtain ⟨_, hmem⟩ := ih t0 h0
                  exact ⟨List.mem_cons_of_mem c (hmem e he').1, (hmem e he').2⟩
            · have h0 : t ∈ pySplit (d :: rest') := hsp ▸ List.mem_cons_of_mem t0 ht'
              obtain ⟨hne, hmem⟩ := ih t h0
              exact ⟨hne, fun e he =>
                ⟨List.mem_cons_of_mem c (hmem e he).1, (hmem e he).2⟩⟩

theorem intercalate_space_cons_cons (t t2 : List Char) (more : List (List Char)) :
    List.intercalate [' '] (t :: t2 :: more) =
      t ++ ' ' :: List.intercalate [' '] (t2 :: more) := by
  simp [List.intercalate]

theorem pySplit_intercalate : ∀ toks : List (List Char),
    (∀ t ∈ toks, t ≠ [] ∧ ∀ c ∈ t, isPySpace c = false) →
    pySplit (List.intercalate [' '] toks) = toks
  | [], _ => rfl
  | [t], h => by
    have ht := h t (List.mem_singleton_self t)
    simpa [List.intercalate] using pySplit_token t ht.1 ht.2
  | t :: t2 :: more, h => by
    rw [intercalate_space_cons_cons]
    have ht := h t (List.mem_cons_self t _)
    rw [pySplit_token_space t _ ht.1 ht.2]
    rw [pySplit_intercalate (t2 :: more) fun u hu => h u (List.mem_cons_of_mem t hu)]

theorem pyCollapse_idem (s : List Char) :
    pyCollapse (pyCollapse s) = pyCollapse s := by
  unfold pyCollapse
  rw [pySplit_intercalate (pySplit s) fun t ht =>
    ⟨(pySplit_sound s t ht).1, fun c hc => ((pySplit_sound s t ht).2 c hc).2⟩]

theorem intercalate_head_decomp : ∀ (t : List Char) (more : List (List Char)),
    ∃ u, List.intercalate [' '] (t :: more) = t ++ u
  | t, [] => ⟨[], by simp [List.intercalate]⟩
  | t, t2 :: more => ⟨' ' :: List.intercalate [' '] (t2 :: more),
      intercalate_space_cons_cons t t2 more⟩

theorem intercalate_last_decomp : ∀ toks : List (List Char), toks ≠ [] →
    (∀ t ∈ toks, t ≠ [] ∧ ∀ c ∈ t, isPySpace c = false) →
    ∃ u c0, List.intercalate [' '] toks = u ++ [c0] ∧ isPySpace c0 = false
  | [], h, _ => absurd rfl h
  | [t], _, h => by
    obtain ⟨hne, hns⟩ := h t (List.mem_singleton_self t)
    rcases List.eq_nil_or_concat t with rfl | ⟨t', c0, rfl⟩
    · exact absurd rfl hne
    · exact ⟨t', c0, by simp [List.intercalate],
        hns c0 (by simp)⟩
  | t :: t2 :: more, _, h => by
    obtain ⟨u, c0, hu, hc0⟩ := intercalate_last_decomp (t2 :: more) (by simp)
      fun x hx => h x (List.mem_cons_of_mem t hx)
    refine ⟨t ++ ' ' :: u, c0, ?_, hc0⟩
    rw [intercalate_space_cons_cons, hu]
    simp

theorem pyStrip_of_ends (X : List Char)
    (hhead : X.dropWhile isPySpace = X)
    (hlast : X.reverse.dropWhile isPySpace = X.reverse) :
    pyStrip X = X := by
  unfold pyStrip
  rw [hhead, hlast, List.reverse_reverse]

theorem pyStrip_collapse (s : List Char) :
    pyStrip (pyCollapse s) = pyCollapse s := by
  have hsound := pySplit_sound s
  cases htoks : pySplit s with
  | nil =>
    unfold pyCollapse
    rw [htoks]
    rfl
  | cons t more =>
    have hprops : ∀ x ∈ pySplit s, x ≠ [] ∧ ∀ c ∈ x, isPySpace c = false :=
      fun x hx => ⟨(hsound x hx).1, fun c hc => ((hsound x hx).2 c hc).2⟩
    rw [htoks] at hprops
    refine pyStrip_of_ends _ ?_ ?_
    · unfold pyCollapse
      rw [htoks]
      obtain ⟨u, hu⟩ := intercalate_head_decomp t more
      rw [hu]
      obtain ⟨hne, hns⟩ := hprops t (List.mem_cons_self t _)
      cases t with
      | nil => exact absurd rfl hne
      | cons c0 t' =>
        rw [List.cons_append, List.dropWhile_cons,
          if_neg (by simp [hns c0 (List.mem_cons_self c0 t')])]
    · unfold pyCollapse
      rw [htoks]
      obtain ⟨u, c0, hu, hc0⟩ := intercalate_last_decomp (t :: more) (by simp) hprops
      rw [hu]
      rw [List.reverse_append]
      simp only [List.reverse_cons, List.reverse_nil, List.nil_append,
        List.singleton_append, List.dropWhile_cons]
      rw [if_neg (by simp [hc0])]

theorem mem_intercalate_space : ∀ (toks : List (List Char)) (c : Char),
    c ∈ List.intercalate [' '] toks → c = ' ' ∨ ∃ t ∈ toks, c ∈ t
  | [], c, h => by simp [List.intercalate] at h
  | [t], c, h => Or.inr ⟨t, List.mem_singleton_self t, by
      simpa [List.intercalate] using h⟩
  | t :: t2 :: more, c, h => by
    rw [intercalate_space_cons_cons] at h
    rcases List.mem_append.mp h with h1 | h2
    · exact Or.inr ⟨t, List.mem_cons_self t _, h1⟩
    · rcases List.mem_cons.mp h2 with rfl | h3
      · exact Or.inl rfl
      · rcases mem_intercalate_space (t2 :: more) c h3 with hsp | ⟨u, hu, hcu⟩
        · exact Or.inl hsp
        · exact Or.inr ⟨u, List.mem_cons_of_mem t hu, hcu⟩

theorem mem_normalize_cases (s : List Char) (c : Char) (h : c ∈ normalize_name s) :
    c = ' ' ∨ (c ∈ pyLower s ∧ (isPyWord c || isPySpace c) = true ∧
      isPySpace c = false) := by
  unfold normalize_name at h
  split at h
  · cases h
  · have h1 : c ∈ pyCollapse (stripPunct (stripSuffixes (pyLower s))) := by
      unfold pyStrip at h
      have h2 := List.mem_reverse.mp h
      have h3 := (List.dropWhile_sublist _).subset h2
      have h4 := List.mem_reverse.mp h3
      exact (List.dropWhile_sublist _).subset h4
    unfold pyCollapse at h1
    rcases mem_intercalate_space _ c h1 with rfl | ⟨t, ht, hct⟩
    · exact Or.inl rfl
    · right
      obtain ⟨hmem, hns⟩ := (pySplit_sound _ t ht).2 c hct
      obtain ⟨hmem2, hword⟩ := List.mem_filter.mp hmem
      exact ⟨(stripSuffixes_sublist _).subset hmem2, hword, hns⟩

/-- C4 amended: normalization is idempotent exactly on the inputs whose
normalized form contains no further corporate-suffix occurrence: if the
suffix-removal stage leaves `normalize_name s` unchanged, a second
normalization returns it unchanged.  (In general idempotence fails —
suffix removal can expose a new suffix, see the counterexample.) -/
theorem C4_normalize_idem_when_suffix_free (s : List Char)
    (h : stripSuffixes (normalize_name s) = normalize_name s) :
    normalize_name (normalize_name s) = normalize_name s := by
  by_cases hy : (normalize_name s).isEmpty
  · have hy' : normalize_name s = [] := by simpa using hy
    rw [hy']
    rfl
  · have hs : s.isEmpty = false := by
      cases hse : s.isEmpty
      · rfl
      · exfalso
        apply hy
        have hnil : s = [] := by simpa using hse
        rw [hnil]
        decide
    have hrep : normalize_name s =
        pyCollapse (stripPunct (stripSuffixes (pyLower s))) := by
      conv_lhs => rw [normalize_name]
      rw [if_neg (by simp [hs])]
      exact pyStrip_collapse _
    have hlow : pyLower (normalize_name s) = normalize_name s := by
      refine pyLower_fixed _ fun c hc => ?_
      rcases mem_normalize_cases s c hc with rfl | ⟨hc1, _, _⟩
      · decide
      · exact mem_pyLower_stable s c hc1
    have hpunct : stripPunct (normalize_name s) = normalize_name s := by
      refine List.filter_eq_self.mpr fun c hc => ?_
      rcases mem_normalize_cases s c hc with rfl | ⟨_, hw, _⟩
      · decide
      · exact hw
    have hcoll : pyCollapse (normalize_name s) = normalize_name s := by
      conv_lhs => rw [hrep]
      rw [pyCollapse_idem]
      exact hrep.symm
    have hstrip : pyStrip (normalize_name s) = normalize_name s := by
      conv_lhs => rw [hrep]
      rw [pyStrip_collapse]
      exact hrep.symm
    calc normalize_name (normalize_name s)
        = if (normalize_name s).isEmpty then [] else
            pyStrip (pyCollapse (stripPunct (stripSuffixes
              (pyLower (normalize_name s))))) := rfl
      _ = pyStrip (pyCollapse (stripPunct (stripSuffixes
            (pyLower (normalize_name s))))) := by rw [if_neg (by simpa using hy)]
      _ = normalize_name s := by rw [hlow, h, hpunct, hcoll, hstrip]

/-- C4 counterexample: normalization is not idempotent — removing the
`a.s.` suffix from `"aass"` leaves `"as"`, which a second pass deletes
entirely. -/
theorem C4_normalize_not_idempotent :
    normalize_name (normalize_name "aass".data) ≠ normalize_name "aass".data := by
  decide

/-- C4 witness: the conditional idempotence at a suffix-free input. -/
theorem C4_normalize_idem_when_suffix_free_witness :
    normalize_name (normalize_name "abc".data) = normalize_name "abc".data :=
  C4_normalize_idem_when_suffix_free "abc".data (by decide)

theorem mem_b2jOf (b : List Char) (c : Char) (j : Nat) (h : j ∈ b2jOf b c) :
    j < b.length ∧ b.getD j ' ' = c := by
  simp only [b2jOf] at h
  split at h
  · cases h
  · obtain ⟨hj, hc⟩ := List.mem_filter.mp h
    exact ⟨List.mem_range.mp hj, by simpa using hc⟩

theorem flmInner_cons (j2len : Nat → Nat) (blo bhi i j : Nat) (js : List Nat)
    (newj2len : Nat → Nat) (best : Nat × Nat × Nat) :
    flmInner j2len blo bhi i (j :: js) newj2len best =
      if j < blo then flmInner j2len blo bhi i js newj2len best
      else if bhi ≤ j then (newj2len, best)
      else
        flmInner j2len blo bhi i js
          (fun x => if x = j then (if j = 0 then 0 else j2len (j - 1)) + 1
                    else newj2len x)
          (if best.2.2 < (if j = 0 then 0 else j2len (j - 1)) + 1 then
             (i + 1 - ((if j = 0 then 0 else j2len (j - 1)) + 1),
              j + 1 - ((if j = 0 then 0 else j2len (j - 1)) + 1),
              (if j = 0 then 0 else j2len (j - 1)) + 1)
           else best) := rfl

theorem flmInner_sound (a b : List Char) (alo blo bhi i : Nat) (hialo : alo ≤ i)
    (j2len : Nat → Nat)
    (hprev : ∀ j, 0 < j2len j →
      j2len j ≤ i - alo ∧ j2len j ≤ j + 1 ∧ blo ≤ j + 1 - j2len j ∧
      ∀ off < j2len j, a.getD (i - 1 - off) ' ' = b.getD (j - off) ' ') :
    ∀ (js : List Nat), (∀ j ∈ js, b.getD j ' ' = a.getD i ' ') →
    ∀ (newacc : Nat → Nat),
      (∀ j, 0 < newacc j →
        newacc j ≤ i + 1 - alo ∧ newacc j ≤ j + 1 ∧ blo ≤ j + 1 - newacc j ∧
        j < bhi ∧
        ∀ off < newacc j, a.getD (i - off) ' ' = b.getD (j - off) ' ') →
    ∀ (best : Nat × Nat × Nat),
      ((best.2.2 = 0 ∧ best.1 = alo ∧ best.2.1 = blo) ∨
        (0 < best.2.2 ∧ alo ≤ best.1 ∧ blo ≤ best.2.1 ∧
         best.1 + best.2.2 ≤ i + 1 ∧ best.2.1 + best.2.2 ≤ bhi ∧
         ∀ off < best.2.2,
           a.getD (best.1 + off) ' ' = b.getD (best.2.1 + off) ' ')) →
      (∀ j, 0 < (flmInner j2len blo bhi i js newacc best).1 j →
        (flmInner j2len blo bhi i js newacc best).1 j ≤ i + 1 - alo ∧
        (flmInner j2len blo bhi i js newacc best).1 j ≤ j + 1 ∧
        blo ≤ j + 1 - (flmInner j2len blo bhi i js newacc best).1 j ∧
        j < bhi ∧
        ∀ off < (flmInner j2len blo bhi i js newacc best).1 j,
          a.getD (i - off) ' ' = b.getD (j - off) ' ') ∧
      (((flmInner j2len blo bhi i js newacc best).2.2.2 = 0 ∧
          (flmInner j2len blo bhi i js newacc best).2.1 = alo ∧
          (flmInner j2len blo bhi i js newacc best).2.2.1 = blo) ∨
        (0 < (flmInner j2len blo bhi i js newacc best).2.2.2 ∧
         alo ≤ (flmInner j2len blo bhi i js newacc best).2.1 ∧
         blo ≤ (flmInner j2len blo bhi i js newacc best).2.2.1 ∧
         (flmInner j2len blo bhi i js newacc best).2.1 +
           (flmInner j2len blo bhi i js newacc best).2.2.2 ≤ i + 1 ∧
         (flmInner j2len blo bhi i js newacc best).2.2.1 +
           (flmInner j2len blo bhi i js newacc best).2.2.2 ≤ bhi ∧
         ∀ off < (flmInner j2len blo bhi i js newacc best).2.2.2,
           a.getD ((flmInner j2len blo bhi i js newacc best).2.1 + off) ' ' =
             b.getD ((flmInner j2len blo bhi i js newacc best).2.2.1 + off) ' ')) := by
  intro js
  induction js with
  | nil =>
    intro _ newacc hacc best hbest
    exact ⟨hacc, hbest⟩
  | cons j js ih =>
    intro hjs newacc hacc best hbest
    rw [flmInner_cons]
    by_cases hjlo : j < blo
    · rw [if_pos hjlo]
      exact ih (fun x hx => hjs x (List.mem_cons_of_mem j hx)) newacc hacc best hbest
    · rw [if_neg hjlo]
      by_cases hjhi : bhi ≤ j
      · rw [if_pos hjhi]
        exact ⟨hacc, hbest⟩
      · rw [if_neg hjhi]
        have hblo : blo ≤ j := Nat.le_of_not_lt hjlo
        have hbhi : j < bhi := Nat.lt_of_not_le hjhi
        have hj := hjs j (List.mem_cons_self j js)
        have hrun : ∀ off < (if j = 0 then 0 else j2len (j - 1)) + 1,
            a.getD (i - off) ' ' = b.getD (j - off) ' ' := by
          intro off hoff
          cases off with
          | zero => simpa using hj.symm
          | succ off' =>
            by_cases hj0 : j = 0
            · rw [hj0] at hoff
              simp at hoff
            · rw [if_neg hj0] at hoff
              have hv : 0 < j2len (j - 1) := by omega
              obtain ⟨hv1, hv2, hv3, hv4⟩ := hprev (j - 1) hv
              have hoffv := hv4 off' (by omega)
              have e1 : i - 1 - off' = i - (off' + 1) := by omega
              have e2 : j - 1 - off' = j - (off' + 1) := by omega
              rw [e1, e2] at hoffv
              exact hoffv
        have hkle1 : (if j = 0 then 0 else j2len (j - 1)) + 1 ≤ i + 1 - alo := by
          by_cases hj0 : j = 0
          · rw [if_pos hj0]; omega
          · rw [if_neg hj0]
            rcases Nat.eq_zero_or_pos (j2len (j - 1)) with hz | hpos
            · rw [hz]; omega
            · have := (hprev (j - 1) hpos).1
              omega
        have hkle2 : (if j = 0 then 0 else j2len (j - 1)) + 1 ≤ j + 1 := by
          by_cases hj0 : j = 0
          · rw [if_pos hj0]; omega
          · rw [if_neg hj0]
            rcases Nat.eq_zero_or_pos (j2len (j - 1)) with hz | hpos
            · rw [hz]; omega
            · have := (hprev (j - 1) hpos).2.1
              omega
        have hkle3 : blo ≤ j + 1 - ((if j = 0 then 0 else j2len (j - 1)) + 1) := by
          by_cases hj0 : j = 0
          · rw [if_pos hj0]; omega
          · rw [if_neg hj0]
            rcases Nat.eq_zero_or_pos (j2len (j - 1)) with hz | hpos
            · rw [hz]; omega
            · have := (hprev (j - 1) hpos).2.2.1
              omega
        have hacc' : ∀ x, 0 < (fun x => if x = j then
              (if j = 0 then 0 else j2len (j - 1)) + 1 else newacc x) x →
            (fun x => if x = j then (if j = 0 then 0 else j2len (j - 1)) + 1
              else newacc x) x ≤ i + 1 - alo ∧
            (fun x => if x = j then (if j = 0 then 0 else j2len (j - 1)) + 1
              else newacc x) x ≤ x + 1 ∧
            blo ≤ x + 1 - (fun x => if x = j then
              (if j = 0 then 0 else j2len (j - 1)) + 1 else newacc x) x ∧
            x < bhi ∧
            ∀ off < (fun x => if x = j then
              (if j = 0 then 0 else j2len (j - 1)) + 1 else newacc x) x,
              a.getD (i - off) ' ' = b.getD (x - off) ' ' := by
          intro x hx
          by_cases hxj : x = j
          · subst hxj
            simp only [if_pos rfl] at hx ⊢
            exact ⟨hkle1, hkle2, hkle3, hbhi, hrun⟩
          · simp only [if_neg hxj] at hx ⊢
            exact hacc x hx
        by_cases hcmp : best.2.2 < (if j = 0 then 0 else j2len (j - 1)) + 1
        · rw [if_pos hcmp]
          refine ih (fun x hx => hjs x (List.mem_cons_of_mem j hx)) _ hacc' _ ?_
          have hki : (if j = 0 then 0 else j2len (j - 1)) + 1 ≤ i + 1 := by omega
          right
          dsimp only
          refine ⟨by omega, by omega, by omega, by omega, by omega, ?_⟩
          intro off hoff
          have hoffrun := hrun ((if j = 0 then 0 else j2len (j - 1)) + 1 - 1 - off)
            (by omega)
          have e1 : i - ((if j = 0 then 0 else j2len (j - 1)) + 1 - 1 - off) =
              i + 1 - ((if j = 0 then 0 else j2len (j - 1)) + 1) + off := by
            omega
          have e2 : j - ((if j = 0 then 0 else j2len (j - 1)) + 1 - 1 - off) =
              j + 1 - ((if j = 0 then 0 else j2len (j - 1)) + 1) + off := by
            omega
          rw [e1, e2] at hoffrun
          exact hoffrun
        · rw [if_neg hcmp]
          exact ih (fun x hx => hjs x (List.mem_cons_of_mem j hx)) _ hacc' best hbest

theorem flmBestInv_mono (a b : List Char) (alo blo bhi m m' : Nat)
    (h : m ≤ m') (best : Nat × Nat × Nat)
    (hb : flmBestInv a b alo blo bhi m best) :
    flmBestInv a b alo blo bhi m' best := by
  unfold flmBestInv at hb ⊢
  rcases hb with h1 | ⟨h1, h2, h3, h4, h5, h6⟩
  · exact Or.inl h1
  · exact Or.inr ⟨h1, h2, h3, by omega, h5, h6⟩

theorem flmOuter_sound (a b : List Char) (alo blo bhi : Nat) :
    ∀ (steps i : Nat) (j2len : Nat → Nat) (best : Nat × Nat × Nat),
      alo ≤ i →
      flmRowInv a b alo blo i j2len →
      flmBestInv a b alo blo bhi i best →
      flmBestInv a b alo blo bhi (i + steps)
        (flmOuter a (b2jOf b) blo bhi steps i j2len best) := by
  intro steps
  induction steps with
  | zero =>
    intro i j2len best _ _ hbest
    exact hbest
  | succ steps ih =>
    intro i j2len best hialo hrow hbest
    show flmBestInv a b alo blo bhi (i + (steps + 1))
      (flmOuter a (b2jOf b) blo bhi steps (i + 1)
        (flmInner j2len blo bhi i (b2jOf b (a.getD i ' ')) (fun _ => 0) best).1
        (flmInner j2len blo bhi i (b2jOf b (a.getD i ' ')) (fun _ => 0) best).2)
    have hstep := flmInner_sound a b alo blo bhi i hialo j2len hrow
      (b2jOf b (a.getD i ' '))
      (fun j hj => (mem_b2jOf b (a.getD i ' ') j hj).2)
      (fun _ => 0) (fun j hj => absurd hj (by simp))
      best (by
        have := flmBestInv_mono a b alo blo bhi i (i + 1) (by omega) best hbest
        unfold flmBestInv at this
        exact this)
    have harith : i + (steps + 1) = (i + 1) + steps := by omega
    rw [harith]
    refine ih (i + 1) _ _ (by omega) ?_ ?_
    · intro j hj
      obtain ⟨h1, h2, h3, _, h5⟩ := hstep.1 j hj
      refine ⟨by omega, h2, h3, ?_⟩
      intro off hoff
      have e : i + 1 - 1 - off = i - off := by omega
      rw [e]
      exact h5 off hoff
    · unfold flmBestInv
      exact hstep.2

theorem extLo_true_id (a b : List Char) (alo blo : Nat) :
    ∀ (fuel : Nat) (best : Nat × Nat × Nat),
      extLo a b alo blo (bjunkOf b) true fuel best = best := by
  intro fuel best
  cases fuel with
  | zero => rfl
  | succ fuel =>
    obtain ⟨bi, bj, bs⟩ := best
    simp [extLo, bjunkOf]

theorem extHi_true_id (a b : List Char) (ahi bhi : Nat) :
    ∀ (fuel : Nat) (best : Nat × Nat × Nat),
      extHi a b ahi bhi (bjunkOf b) true fuel best = best := by
  intro fuel best
  cases fuel with
  | zero => rfl
  | succ fuel =>
    obtain ⟨bi, bj, bs⟩ := best
    simp [extHi, bjunkOf]

theorem extLo_false_pres (a b : List Char) (alo ahi blo bhi : Nat) :
    ∀ (fuel : Nat) (best : Nat × Nat × Nat),
      flmBestInv a b alo blo bhi ahi best →
      flmBestInv a b alo blo bhi ahi
        (extLo a b alo blo (bjunkOf b) false fuel best) := by
  intro fuel
  induction fuel with
  | zero => intro best hb; exact hb
  | succ fuel ih =>
    intro best hb
    obtain ⟨bi, bj, bs⟩ := best
    rw [show extLo a b alo blo (bjunkOf b) false (fuel + 1) (bi, bj, bs) =
        if alo < bi && blo < bj && (bjunkOf b (b.getD (bj - 1) ' ') = false)
            && (a.getD (bi - 1) ' ' = b.getD (bj - 1) ' ') then
          extLo a b alo blo (bjunkOf b) false fuel (bi - 1, bj - 1, bs + 1)
        else (bi, bj, bs) from rfl]
    by_cases hg : (alo < bi && blo < bj && (bjunkOf b (b.getD (bj - 1) ' ') = false)
        && (a.getD (bi - 1) ' ' = b.getD (bj - 1) ' ')) = true
    · rw [if_pos hg]
      simp only [Bool.and_eq_true, decide_eq_true_eq] at hg
      obtain ⟨⟨⟨hbi, hbj⟩, _⟩, heq⟩ := hg
      refine ih (bi - 1, bj - 1, bs + 1) ?_
      unfold flmBestInv at hb ⊢
      dsimp only at hb ⊢
      rcases hb with ⟨_, h2, _⟩ | ⟨h1, h2, h3, h4, h5, h6⟩
      · omega
      · refine Or.inr ⟨by omega, by omega, by omega, by omega, by omega, ?_⟩
        intro off hoff
        cases off with
        | zero =>
          simpa using heq
        | succ off' =>
          have e1 : bi - 1 + (off' + 1) = bi + off' := by omega
          have e2 : bj - 1 + (off' + 1) = bj + off' := by omega
          rw [e1, e2]
          exact h6 off' (by omega)
    · rw [if_neg hg]
      exact hb

theorem extHi_false_pres (a b : List Char) (alo ahi blo bhi : Nat)
    (haw : alo ≤ ahi) (hbw : blo ≤ bhi) :
    ∀ (fuel : Nat) (best : Nat × Nat × Nat),
      flmBestInv a b alo blo bhi ahi best →
      flmBestInv a b alo blo bhi ahi
        (extHi a b ahi bhi (bjunkOf b) false fuel best) := by
  intro fuel
  induction fuel with
  | zero => intro best hb; exact hb
  | succ fuel ih =>
    intro best hb
    obtain ⟨bi, bj, bs⟩ := best
    rw [show extHi a b ahi bhi (bjunkOf b) false (fuel + 1) (bi, bj, bs) =
        if bi + bs < ahi && bj + bs < bhi && (bjunkOf b (b.getD (bj + bs) ' ') = false)
            && (a.getD (bi + bs) ' ' = b.getD (bj + bs) ' ') then
          extHi a b ahi bhi (bjunkOf b) false fuel (bi, bj, bs + 1)
        else (bi, bj, bs) from rfl]
    by_cases hg : (bi + bs < ahi && bj + bs < bhi && (bjunkOf b (b.getD (bj + bs) ' ') = false)
        && (a.getD (bi + bs) ' ' = b.getD (bj + bs) ' ')) = true
    · rw [if_pos hg]
      simp only [Bool.and_eq_true, decide_eq_true_eq] at hg
      obtain ⟨⟨⟨hbi, hbj⟩, _⟩, heq⟩ := hg
      refine ih (bi, bj, bs + 1) ?_
      unfold flmBestInv at hb ⊢
      dsimp only at hb ⊢
      rcases hb with ⟨h1, h2, h3⟩ | ⟨h1, h2, h3, h4, h5, h6⟩
      · subst h1 h2 h3
        refine Or.inr ⟨by omega, Nat.le_refl _, Nat.le_refl _, by omega, by omega, ?_⟩
        intro off hoff
        have hoff0 : off = 0 := by omega
        subst hoff0
        simpa using heq
      · refine Or.inr ⟨by omega, h2, h3, by omega, by omega, ?_⟩
        intro off hoff
        rcases Nat.lt_or_ge off bs with hlt | hge
        · exact h6 off hlt
        · have hoffbs : off = bs := by omega
          subst hoffbs
          exact heq
    · rw [if_neg hg]
      exact hb

theorem flm_post (a b : List Char) (alo ahi blo bhi : Nat)
    (haw : alo ≤ ahi) (hbw : blo ≤ bhi) :
    flmBestInv a b alo blo bhi ahi (find_longest_match a b alo ahi blo bhi) := by
  unfold find_longest_match
  rw [extHi_true_id, extLo_true_id]
  refine extHi_false_pres a b alo ahi blo bhi haw hbw _ _ ?_
  refine extLo_false_pres a b alo ahi blo bhi _ _ ?_
  have h0 := flmOuter_sound a b alo blo bhi (ahi - alo) alo (fun _ => 0) (alo, blo, 0)
    (Nat.le_refl alo)
    (fun j hj => absurd hj (by simp))
    (Or.inl ⟨rfl, rfl, rfl⟩)
  have harith : alo + (ahi - alo) = ahi := by omega
  rw [harith] at h0
  exact h0

theorem sepQ_symm {x y : Nat × Nat × Nat × Nat} (h : sepQ x y) : sepQ y x := by
  unfold sepQ at h ⊢
  tauto

theorem sepQ_of_subQ_left {q w e : Nat × Nat × Nat × Nat}
    (hs : subQ q w) (h : sepQ w e) : sepQ q e := by
  unfold subQ at hs
  unfold sepQ at h ⊢
  omega

theorem sepQ_of_subQ_right {q w e : Nat × Nat × Nat × Nat}
    (hs : subQ q w) (h : sepQ e w) : sepQ e q := by
  unfold subQ at hs
  unfold sepQ at h ⊢
  omega

theorem gmbLoop_succ (a b : List Char) (fuel : Nat)
    (queue : List (Nat × Nat × Nat × Nat)) (acc : List (Nat × Nat × Nat)) :
    gmbLoop a b (fuel + 1) queue acc =
      match queue.getLast? with
      | none => acc
      | some (alo, ahi, blo, bhi) =>
        let rest := queue.dropLast
        let m := find_longest_match a b alo ahi blo bhi
        if m.2.2 = 0 then gmbLoop a b fuel rest acc
        else
          gmbLoop a b fuel
            (rest
              ++ (if alo < m.1 && blo < m.2.1 then [(alo, m.1, blo, m.2.1)] else [])
              ++ (if m.1 + m.2.2 < ahi && m.2.1 + m.2.2 < bhi then
                    [(m.1 + m.2.2, ahi, m.2.1 + m.2.2, bhi)] else []))
            (acc ++ [(m.1, m.2.1, m.2.2)]) := rfl

theorem gmbInv_final (a b : List Char) (queue : List (Nat × Nat × Nat × Nat))
    (acc : List (Nat × Nat × Nat))
    (hacc : ∀ t ∈ acc, wfBlock a b t)
    (hsa : (queue.map fun w => w.2.1 - w.1).sum + (acc.map fun t => t.2.2).sum ≤ a.length)
    (hsb : (queue.map fun w => w.2.2.2 - w.2.2.1).sum + (acc.map fun t => t.2.2).sum ≤ b.length)
    (hpw : List.Pairwise sepQ (queue ++ acc.map quadOfBlock)) :
    (∀ t ∈ acc, wfBlock a b t) ∧
    (acc.map fun t => t.2.2).sum ≤ a.length ∧
    (acc.map fun t => t.2.2).sum ≤ b.length ∧
    List.Pairwise sepQ (acc.map quadOfBlock) :=
  ⟨hacc, by omega, by omega,
    List.Pairwise.sublist (List.sublist_append_right queue (acc.map quadOfBlock)) hpw⟩

set_option maxHeartbeats 1600000 in
theorem gmbLoop_sound (a b : List Char) :
    ∀ (fuel : Nat) (queue : List (Nat × Nat × Nat × Nat)) (acc : List (Nat × Nat × Nat)),
      (∀ w ∈ queue, wfWindow a b w) →
      (∀ t ∈ acc, wfBlock a b t) →
      (queue.map fun w => w.2.1 - w.1).sum + (acc.map fun t => t.2.2).sum ≤ a.length →
      (queue.map fun w => w.2.2.2 - w.2.2.1).sum + (acc.map fun t => t.2.2).sum ≤ b.length →
      List.Pairwise sepQ (queue ++ acc.map quadOfBlock) →
      (∀ t ∈ gmbLoop a b fuel queue acc, wfBlock a b t) ∧
      ((gmbLoop a b fuel queue acc).map fun t => t.2.2).sum ≤ a.length ∧
      ((gmbLoop a b fuel queue acc).map fun t => t.2.2).sum ≤ b.length ∧
      List.Pairwise sepQ ((gmbLoop a b fuel queue acc).map quadOfBlock) := by
  intro fuel
  induction fuel with
  | zero =>
    intro queue acc _ hacc hsa hsb hpw
    exact gmbInv_final a b queue acc hacc hsa hsb hpw
  | succ fuel ih =>
    intro queue acc hwin hacc hsa hsb hpw
    rw [gmbLoop_succ]
    split
    · exact gmbInv_final a b queue acc hacc hsa hsb hpw
    · rename_i alo ahi blo bhi heq
      have hmem : (alo, ahi, blo, bhi) ∈ queue.getLast? := by
        rw [heq]; rfl
      have hdec : queue.dropLast ++ [(alo, ahi, blo, bhi)] = queue :=
        List.dropLast_append_getLast? _ hmem
      rw [← hdec] at hwin hsa hsb hpw
      have hw : wfWindow a b (alo, ahi, blo, bhi) := hwin _ (by simp)
      unfold wfWindow at hw
      dsimp only at hw
      obtain ⟨hw1, hw2, hw3, hw4⟩ := hw
      have hrest : ∀ x ∈ queue.dropLast, wfWindow a b x := fun x hx =>
        hwin x (List.mem_append_left _ hx)
      simp only [List.map_append, List.sum_append, List.map_cons, List.map_nil,
        List.sum_cons, List.sum_nil] at hsa hsb
      rw [List.append_assoc] at hpw
      obtain ⟨hpwRest, hpwWA, hcross⟩ := List.pairwise_append.mp hpw
      obtain ⟨_, hpwAcc, hWA⟩ := List.pairwise_append.mp hpwWA
      have hwacc : ∀ y ∈ acc.map quadOfBlock, sepQ (alo, ahi, blo, bhi) y :=
        fun y hy => hWA _ (List.mem_singleton.mpr rfl) y hy
      have hrw : ∀ x ∈ queue.dropLast, sepQ x (alo, ahi, blo, bhi) :=
        fun x hx => hcross x hx _ (List.mem_append_left _ (List.mem_singleton.mpr rfl))
      have hra : ∀ x ∈ queue.dropLast, ∀ y ∈ acc.map quadOfBlock, sepQ x y :=
        fun x hx y hy => hcross x hx y (List.mem_append_right _ hy)
      obtain ⟨⟨i, j, k⟩, hm⟩ : ∃ m, find_longest_match a b alo ahi blo bhi = m := ⟨_, rfl⟩
      have hP := flm_post a b alo ahi blo bhi hw1 hw3
      rw [hm] at hP
      dsimp only
      rw [hm]
      dsimp only
      by_cases hk : k = 0
      · rw [if_pos hk]
        refine ih queue.dropLast acc hrest hacc (by omega) (by omega) ?_
        refine List.Pairwise.sublist ?_ hpw
        exact List.Sublist.append (List.Sublist.refl _) (List.sublist_append_right _ _)
      · rw [if_neg hk]
        unfold flmBestInv at hP
        dsimp only at hP
        rcases hP with ⟨hk0, _, _⟩ | ⟨hkpos, hai, hbj, hik, hjk, hsl⟩
        · exact absurd hk0 hk
        refine ih _ _ ?_ ?_ ?_ ?_ ?_
        · intro x hx
          rcases List.mem_append.mp hx with hx | hx
          · rcases List.mem_append.mp hx with hx | hx
            · exact hrest x hx
            · split at hx
              · rw [List.mem_singleton] at hx
                subst hx
                unfold wfWindow
                dsimp only
                omega
              · cases hx
          · split at hx
            · rw [List.mem_singleton] at hx
              subst hx
              unfold wfWindow
              dsimp only
              omega
            · cases hx
        · intro t ht
          rcases List.mem_append.mp ht with ht | ht
          · exact hacc t ht
          · rw [List.mem_singleton] at ht
            subst ht
            unfold wfBlock
            dsimp only
            exact ⟨by omega, by omega, by omega, hsl⟩
        · have hp1 : ((if alo < i && blo < j then [((alo : Nat), i, blo, j)] else []).map
              (fun w => w.2.1 - w.1)).sum ≤ i - alo := by
            split
            · dsimp only [List.map_cons, List.map_nil, List.sum_cons, List.sum_nil]
              omega
            · simp
          have hp2 : ((if i + k < ahi && j + k < bhi then
                [((i + k : Nat), ahi, j + k, bhi)] else []).map
              (fun w => w.2.1 - w.1)).sum ≤ ahi - (i + k) := by
            split
            · dsimp only [List.map_cons, List.map_nil, List.sum_cons, List.sum_nil]
              omega
            · simp
          simp only [List.map_append, List.sum_append, List.map_cons, List.map_nil,
            List.sum_cons, List.sum_nil]
          omega
        · have hp1 : ((if alo < i && blo < j then [((alo : Nat), i, blo, j)] else []).map
              (fun w => w.2.2.2 - w.2.2.1)).sum ≤ j - blo := by
            split
            · dsimp only [List.map_cons, List.map_nil, List.sum_cons, List.sum_nil]
              omega
            · simp
          have hp2 : ((if i + k < ahi && j + k < bhi then
                [((i + k : Nat), ahi, j + k, bhi)] else []).map
              (fun w => w.2.2.2 - w.2.2.1)).sum ≤ bhi - (j + k) := by
            split
            · dsimp only [List.map_cons, List.map_nil, List.sum_cons, List.sum_nil]
              omega
            · simp
          simp only [List.map_append, List.sum_append, List.map_cons, List.map_nil,
            List.sum_cons, List.sum_nil]
          omega
        · have hsub : ∀ y ∈ ((if alo < i && blo < j then [((alo : Nat), i, blo, j)] else [])
                ++ (if i + k < ahi && j + k < bhi then [((i + k : Nat), ahi, j + k, bhi)] else []))
                ++ [quadOfBlock (i, j, k)],
              subQ y (alo, ahi, blo, bhi) := by
            intro y hy
            rcases List.mem_append.mp hy with hy | hy
            · rcases List.mem_append.mp hy with hy | hy
              · split at hy
                · rw [List.mem_singleton] at hy
                  subst hy
                  unfold subQ
                  dsimp only
                  omega
                · cases hy
              · split at hy
                · rw [List.mem_singleton] at hy
                  subst hy
                  unfold subQ
                  dsimp only
                  omega
                · cases hy
            · rw [List.mem_singleton] at hy
              subst hy
              unfold subQ quadOfBlock
              dsimp only
              omega
          have hpwNew : List.Pairwise sepQ
              (((if alo < i && blo < j then [((alo : Nat), i, blo, j)] else [])
                ++ (if i + k < ahi && j + k < bhi then [((i + k : Nat), ahi, j + k, bhi)] else []))
                ++ [quadOfBlock (i, j, k)]) := by
            refine List.pairwise_append.mpr ⟨?_, List.pairwise_singleton _ _, ?_⟩
            · refine List.pairwise_append.mpr ⟨?_, ?_, ?_⟩
              · split <;> simp
              · split <;> simp
              · intro x hx y hy
                split at hx
                · rw [List.mem_singleton] at hx
                  subst hx
                  split at hy
                  · rw [List.mem_singleton] at hy
                    subst hy
                    unfold sepQ
                    dsimp only
                    omega
                  · cases hy
                · cases hx
            · intro x hx y hy
              rw [List.mem_singleton] at hy
              subst hy
              rcases List.mem_append.mp hx with hx | hx
              · split at hx
                · rw [List.mem_singleton] at hx
                  subst hx
                  unfold sepQ quadOfBlock
                  dsimp only
                  omega
                · cases hx
              · split at hx
                · rw [List.mem_singleton] at hx
                  subst hx
                  unfold sepQ quadOfBlock
                  dsimp only
                  omega
                · cases hx
          have hS : List.Pairwise sepQ (queue.dropLast ++ ((acc.map quadOfBlock) ++
              (((if alo < i && blo < j then [((alo : Nat), i, blo, j)] else [])
                ++ (if i + k < ahi && j + k < bhi then [((i + k : Nat), ahi, j + k, bhi)] else []))
                ++ [quadOfBlock (i, j, k)]))) := by
            refine List.pairwise_append.mpr ⟨hpwRest, ?_, ?_⟩
            · refine List.pairwise_append.mpr ⟨hpwAcc, hpwNew, ?_⟩
              intro x hx y hy
              exact sepQ_of_subQ_right (hsub y hy) (sepQ_symm (hwacc x hx))
            · intro x hx y hy
              rcases List.mem_append.mp hy with hy | hy
              · exact hra x hx y hy
              · exact sepQ_of_subQ_right (hsub y hy) (hrw x hx)
          refine (List.Perm.pairwise_iff (fun h => sepQ_symm h) ?_).mp hS
          simp only [List.map_append, List.map_cons, List.map_nil, List.append_assoc]
          refine List.Perm.append_left _ ?_
          exact ((List.perm_append_comm_assoc _ _ _).trans
            (List.Perm.append_left _ (List.perm_append_comm_assoc _ _ _)))

theorem insertBlock_perm (x : Nat × Nat × Nat) (l : List (Nat × Nat × Nat)) :
    List.Perm (insertBlock x l) (x :: l) := by
  induction l with
  | nil => exact List.Perm.refl _
  | cons y ys ih =>
    unfold insertBlock
    split
    · exact List.Perm.refl _
    · exact (List.Perm.cons y ih).trans (List.Perm.swap x y ys)

theorem sortBlocks_perm (l : List (Nat × Nat × Nat)) :
    List.Perm (sortBlocks l) l := by
  induction l with
  | nil => exact List.Perm.refl _
  | cons x xs ih =>
    exact (insertBlock_perm x (sortBlocks xs)).trans (List.Perm.cons x ih)

theorem blockLE_total (x y : Nat × Nat × Nat) :
    blockLE x y = true ∨ blockLE y x = true := by
  unfold blockLE
  simp only [Bool.or_eq_true, Bool.and_eq_true, decide_eq_true_eq]
  omega

theorem blockLE_trans {x y z : Nat × Nat × Nat}
    (h1 : blockLE x y = true) (h2 : blockLE y z = true) : blockLE x z = true := by
  unfold blockLE at h1 h2 ⊢
  simp only [Bool.or_eq_true, Bool.and_eq_true, decide_eq_true_eq] at h1 h2 ⊢
  omega

theorem insertBlock_sorted (x : Nat × Nat × Nat) (l : List (Nat × Nat × Nat))
    (h : List.Pairwise (fun u v => blockLE u v = true) l) :
    List.Pairwise (fun u v => blockLE u v = true) (insertBlock x l) := by
  induction l with
  | nil => simp [insertBlock]
  | cons y ys ih =>
    rcases List.pairwise_cons.mp h with ⟨hy, hys⟩
    unfold insertBlock
    split
    · rename_i hxy
      refine List.pairwise_cons.mpr ⟨?_, h⟩
      intro z hz
      rcases List.mem_cons.mp hz with hz | hz
      · subst hz
        exact hxy
      · exact blockLE_trans hxy (hy z hz)
    · rename_i hxy
      have hyx : blockLE y x = true := by
        rcases blockLE_total x y with h2 | h2
        · exact absurd h2 hxy
        · exact h2
      refine List.pairwise_cons.mpr ⟨?_, ih hys⟩
      intro z hz
      have hz2 := (insertBlock_perm x ys).mem_iff.mp hz
      rcases List.mem_cons.mp hz2 with hz3 | hz3
      · subst hz3
        exact hyx
      · exact hy z hz3

theorem sortBlocks_sorted (l : List (Nat × Nat × Nat)) :
    List.Pairwise (fun u v => blockLE u v = true) (sortBlocks l) := by
  induction l with
  | nil => simp [sortBlocks]
  | cons x xs ih => exact insertBlock_sorted x (sortBlocks xs) ih

theorem mergeAdj_sum (l : List (Nat × Nat × Nat)) :
    ∀ (cur : Nat × Nat × Nat),
      ((mergeAdj cur l).map fun t => t.2.2).sum = cur.2.2 + (l.map fun t => t.2.2).sum := by
  induction l with
  | nil =>
    intro cur
    obtain ⟨i1, j1, k1⟩ := cur
    unfold mergeAdj
    split
    · simp
    · rename_i hk1
      simp only [List.map_nil, List.sum_nil, List.map_cons]
      omega
  | cons y ys ih =>
    intro cur
    obtain ⟨i1, j1, k1⟩ := cur
    obtain ⟨i2, j2, k2⟩ := y
    unfold mergeAdj
    split
    · rw [ih]
      dsimp only [List.map_cons, List.sum_cons]
      omega
    · rw [List.map_append, List.sum_append, ih]
      dsimp only [List.map_cons, List.sum_cons]
      split
      · dsimp only [List.map_cons, List.map_nil, List.sum_cons, List.sum_nil]
        omega
      · rename_i hk1
        dsimp only [List.map_nil, List.sum_nil]
        omega

theorem blocksSumBoundA (la : Nat) :
    ∀ (l : List (Nat × Nat × Nat)) (c : Nat),
      (∀ t ∈ l, 0 < t.2.2 ∧ t.1 + t.2.2 ≤ la ∧ c ≤ t.1) →
      List.Pairwise (fun x y => sepQ (quadOfBlock x) (quadOfBlock y)) l →
      List.Pairwise (fun u v => blockLE u v = true) l →
      (l.map fun t => t.2.2).sum ≤ la - c := by
  intro l
  induction l with
  | nil =>
    intro c _ _ _
    simp
  | cons t l' ih =>
    intro c hv hsep hle
    obtain ⟨i, j, k⟩ := t
    obtain ⟨hk, hila, hci⟩ := hv _ (List.mem_cons_self _ _)
    dsimp only at hk hila hci
    rcases List.pairwise_cons.mp hsep with ⟨hsepHd, hsepTl⟩
    rcases List.pairwise_cons.mp hle with ⟨hleHd, hleTl⟩
    have hfwd : ∀ y ∈ l', i + k ≤ y.1 := by
      intro y hy
      have h1 := hsepHd y hy
      have h2 := hleHd y hy
      have h3 := (hv y (List.mem_cons_of_mem _ hy)).1
      unfold sepQ quadOfBlock at h1
      unfold blockLE at h2
      simp only [Bool.or_eq_true, Bool.and_eq_true, decide_eq_true_eq] at h2
      dsimp only at h1 h2
      omega
    have htl : ∀ y ∈ l', 0 < y.2.2 ∧ y.1 + y.2.2 ≤ la ∧ i + k ≤ y.1 := by
      intro y hy
      obtain ⟨h1, h2, _⟩ := hv y (List.mem_cons_of_mem _ hy)
      exact ⟨h1, h2, hfwd y hy⟩
    have := ih (i + k) htl hsepTl hleTl
    dsimp only [List.map_cons, List.sum_cons]
    omega

theorem blocksSumBoundB (lb : Nat) :
    ∀ (l : List (Nat × Nat × Nat)) (c : Nat),
      (∀ t ∈ l, 0 < t.2.2 ∧ t.2.1 + t.2.2 ≤ lb ∧ c ≤ t.2.1) →
      List.Pairwise (fun x y => sepQ (quadOfBlock x) (quadOfBlock y)) l →
      List.Pairwise (fun u v => blockLE u v = true) l →
      (l.map fun t => t.2.2).sum ≤ lb - c := by
  intro l
  induction l with
  | nil =>
    intro c _ _ _
    simp
  | cons t l' ih =>
    intro c hv hsep hle
    obtain ⟨i, j, k⟩ := t
    obtain ⟨hk, hjlb, hcj⟩ := hv _ (List.mem_cons_self _ _)
    dsimp only at hk hjlb hcj
    rcases List.pairwise_cons.mp hsep with ⟨hsepHd, hsepTl⟩
    rcases List.pairwise_cons.mp hle with ⟨hleHd, hleTl⟩
    have hfwd : ∀ y ∈ l', j + k ≤ y.2.1 := by
      intro y hy
      have h1 := hsepHd y hy
      have h2 := hleHd y hy
      have h3 := (hv y (List.mem_cons_of_mem _ hy)).1
      unfold sepQ quadOfBlock at h1
      unfold blockLE at h2
      simp only [Bool.or_eq_true, Bool.and_eq_true, decide_eq_true_eq] at h2
      dsimp only at h1 h2
      omega
    have htl : ∀ y ∈ l', 0 < y.2.2 ∧ y.2.1 + y.2.2 ≤ lb ∧ j + k ≤ y.2.1 := by
      intro y hy
      obtain ⟨h1, h2, _⟩ := hv y (List.mem_cons_of_mem _ hy)
      exact ⟨h1, h2, hfwd y hy⟩
    have := ih (j + k) htl hsepTl hleTl
    dsimp only [List.map_cons, List.sum_cons]
    omega

theorem tileBlocks (a b : List Char) :
    ∀ (l : List (Nat × Nat × Nat)) (posA posB : Nat),
      (∀ t ∈ l, wfBlock a b t ∧ posA ≤ t.1 ∧ posB ≤ t.2.1) →
      List.Pairwise (fun x y => sepQ (quadOfBlock x) (quadOfBlock y)) l →
      List.Pairwise (fun u v => blockLE u v = true) l →
      posA ≤ a.length → posB ≤ b.length →
      (l.map fun t => t.2.2).sum = a.length - posA →
      (l.map fun t => t.2.2).sum = b.length - posB →
      a.length - posA = b.length - posB ∧
      ∀ off < a.length - posA, a.getD (posA + off) ' ' = b.getD (posB + off) ' ' := by
  intro l
  induction l with
  | nil =>
    intro posA posB _ _ _ hA hB hsA hsB
    simp only [List.map_nil, List.sum_nil] at hsA hsB
    constructor
    · omega
    · intro off hoff
      omega
  | cons t l' ih =>
    intro posA posB hv hsep hle hA hB hsA hsB
    obtain ⟨i, j, k⟩ := t
    obtain ⟨⟨hk, hila, hjlb, hsl⟩, hpi, hpj⟩ := hv _ (List.mem_cons_self _ _)
    dsimp only at hk hila hjlb hsl hpi hpj
    rcases List.pairwise_cons.mp hsep with ⟨hsepHd, hsepTl⟩
    rcases List.pairwise_cons.mp hle with ⟨hleHd, hleTl⟩
    dsimp only [List.map_cons, List.sum_cons] at hsA hsB
    have hboundA := blocksSumBoundA a.length ((i, j, k) :: l') i
      (by
        intro y hy
        rcases List.mem_cons.mp hy with hy | hy
        · subst hy
          exact ⟨hk, hila, Nat.le_refl _⟩
        · obtain ⟨⟨h1, h2, _, _⟩, _, _⟩ := hv y (List.mem_cons_of_mem _ hy)
          refine ⟨h1, h2, ?_⟩
          have hs := hsepHd y hy
          have hl2 := hleHd y hy
          unfold sepQ quadOfBlock at hs
          unfold blockLE at hl2
          simp only [Bool.or_eq_true, Bool.and_eq_true, decide_eq_true_eq] at hl2
          dsimp only at hs hl2
          omega)
      hsep hle
    have hboundB := blocksSumBoundB b.length ((i, j, k) :: l') j
      (by
        intro y hy
        rcases List.mem_cons.mp hy with hy | hy
        · subst hy
          exact ⟨hk, hjlb, Nat.le_refl _⟩
        · obtain ⟨⟨h1, _, h2, _⟩, _, _⟩ := hv y (List.mem_cons_of_mem _ hy)
          refine ⟨h1, h2, ?_⟩
          have hs := hsepHd y hy
          have hl2 := hleHd y hy
          unfold sepQ quadOfBlock at hs
          unfold blockLE at hl2
          simp only [Bool.or_eq_true, Bool.and_eq_true, decide_eq_true_eq] at hl2
          dsimp only at hs hl2
          omega)
      hsep hle
    dsimp only [List.map_cons, List.sum_cons] at hboundA hboundB
    have hiA : i = posA := by omega
    have hjB : j = posB := by omega
    subst hiA hjB
    have hfwd : ∀ y ∈ l', i + k ≤ y.1 ∧ j + k ≤ y.2.1 := by
      intro y hy
      have hs := hsepHd y hy
      have hl2 := hleHd y hy
      have h3 := (hv y (List.mem_cons_of_mem _ hy)).1.1
      unfold sepQ quadOfBlock at hs
      unfold blockLE at hl2
      simp only [Bool.or_eq_true, Bool.and_eq_true, decide_eq_true_eq] at hl2
      dsimp only at hs hl2
      omega
    have hihres := ih (i + k) (j + k)
      (fun y hy => ⟨(hv y (List.mem_cons_of_mem _ hy)).1, (hfwd y hy).1, (hfwd y hy).2⟩)
      hsepTl hleTl (by omega) (by omega) (by omega) (by omega)
    constructor
    · omega
    · intro off hoff
      rcases Nat.lt_or_ge off k with hoffk | hoffk
      · exact hsl off hoffk
      · have e1 : i + off = i + k + (off - k) := by omega
        have e2 : j + off = j + k + (off - k) := by omega
        rw [e1, e2]
        exact hihres.2 (off - k) (by omega)

theorem gmb_raw_sound (a b : List Char) :
    (∀ t ∈ gmbLoop a b (a.length + b.length + 1) [(0, a.length, 0, b.length)] [],
      wfBlock a b t) ∧
    ((gmbLoop a b (a.length + b.length + 1) [(0, a.length, 0, b.length)] []).map
      fun t => t.2.2).sum ≤ a.length ∧
    ((gmbLoop a b (a.length + b.length + 1) [(0, a.length, 0, b.length)] []).map
      fun t => t.2.2).sum ≤ b.length ∧
    List.Pairwise sepQ ((gmbLoop a b (a.length + b.length + 1)
      [(0, a.length, 0, b.length)] []).map quadOfBlock) := by
  refine gmbLoop_sound a b _ _ _ ?_ ?_ ?_ ?_ ?_
  · intro w hw
    rw [List.mem_singleton] at hw
    subst hw
    unfold wfWindow
    dsimp only
    exact ⟨Nat.zero_le _, Nat.le_refl _, Nat.zero_le _, Nat.le_refl _⟩
  · intro t ht
    exact absurd ht (by simp)
  · simp
  · simp
  · simp

theorem gmb_sum_eq (a b : List Char) :
    ((get_matching_blocks a b).map fun t => t.2.2).sum =
      ((gmbLoop a b (a.length + b.length + 1) [(0, a.length, 0, b.length)] []).map
        fun t => t.2.2).sum := by
  unfold get_matching_blocks
  rw [List.map_append, List.sum_append, mergeAdj_sum]
  rw [List.Perm.sum_eq (List.Perm.map _ (sortBlocks_perm _))]
  dsimp only [List.map_cons, List.map_nil, List.sum_cons, List.sum_nil]
  omega

theorem blocks_tile_eq (a b : List Char) (raw : List (Nat × Nat × Nat))
    (hwf : ∀ t ∈ raw, wfBlock a b t)
    (hpw : List.Pairwise sepQ (raw.map quadOfBlock))
    (hsA : (raw.map fun t => t.2.2).sum = a.length)
    (hsB : (raw.map fun t => t.2.2).sum = b.length) : a = b := by
  have hperm := sortBlocks_perm raw
  have hwf2 : ∀ t ∈ sortBlocks raw, wfBlock a b t := fun t ht =>
    hwf t (hperm.mem_iff.mp ht)
  have hpw0 : List.Pairwise (fun x y => sepQ (quadOfBlock x) (quadOfBlock y)) raw :=
    List.pairwise_map.mp hpw
  have hpw2 : List.Pairwise (fun x y => sepQ (quadOfBlock x) (quadOfBlock y))
      (sortBlocks raw) :=
    (List.Perm.pairwise_iff (fun h => sepQ_symm h) hperm).mpr hpw0
  have hsorted := sortBlocks_sorted raw
  have hsum : ((sortBlocks raw).map fun t => t.2.2).sum =
      (raw.map fun t => t.2.2).sum :=
    List.Perm.sum_eq (hperm.map _)
  have htile := tileBlocks a b (sortBlocks raw) 0 0
    (fun t ht => ⟨hwf2 t ht, Nat.zero_le _, Nat.zero_le _⟩)
    hpw2 hsorted (Nat.zero_le _) (Nat.zero_le _)
    (by rw [hsum, hsA]; omega)
    (by rw [hsum, hsB]; omega)
  have hlen : a.length = b.length := by
    have h1 := htile.1
    have h2 : 0 < a.length + b.length ∨ a.length + b.length = 0 := by omega
    omega
  refine List.ext_getElem hlen ?_
  intro n h1 h2
  have hoff := htile.2 n (by omega)
  simp only [Nat.zero_add] at hoff
  rw [List.getD_eq_getElem a ' ' h1, List.getD_eq_getElem b ' ' h2] at hoff
  exact hoff

/-- C8 counterexample: `calculate_similarity` is NOT symmetric.
`SequenceMatcher('ab','bacb').ratio() = 2/3` but
`SequenceMatcher('bacb','ab').ratio() = 1/3`: the greedy
matching-block recursion keeps only `'b'` in the reversed direction. -/
theorem C8_similarity_not_symmetric :
    calculate_similarity "ab".data "bacb".data ≠
      calculate_similarity "bacb".data "ab".data := by
  unfold calculate_similarity
  rw [if_neg (by decide), if_neg (by decide)]
  unfold ratioOf
  rw [show ((get_matching_blocks "ab".data "bacb".data).map fun t => t.2.2).sum = 2
    from by decide]
  rw [show ((get_matching_blocks "bacb".data "ab".data).map fun t => t.2.2).sum = 1
    from by decide]
  norm_num

/-- C8 (amended): the similarity always lies in `[0, 1]`, and it
returns `1` only for identical strings (symmetry, the third part of the
original claim, fails — see the counterexample). -/
theorem C8_similarity_range_and_identity (s1 s2 : List Char) :
    0 ≤ calculate_similarity s1 s2 ∧ calculate_similarity s1 s2 ≤ 1 ∧
    (calculate_similarity s1 s2 = 1 → s1 = s2) := by
  unfold calculate_similarity
  by_cases he : (s1.isEmpty || s2.isEmpty) = true
  · rw [if_pos he]
    refine ⟨le_refl 0, by norm_num, ?_⟩
    intro h
    exact absurd h (by norm_num)
  · rw [if_neg he]
    simp only [Bool.or_eq_true, List.isEmpty_iff] at he
    have hlen : s1.length + s2.length ≠ 0 := by
      rcases Nat.eq_zero_or_pos s1.length with h0 | h0
      · exact absurd (Or.inl (List.length_eq_zero.mp h0)) he
      · omega
    unfold ratioOf
    dsimp only
    rw [if_pos hlen]
    obtain ⟨M, hM⟩ : ∃ M, ((get_matching_blocks s1 s2).map fun t => t.2.2).sum = M :=
      ⟨_, rfl⟩
    rw [hM]
    have hraw := gmb_raw_sound s1 s2
    have hA : M ≤ s1.length := by
      rw [← hM, gmb_sum_eq]
      exact hraw.2.1
    have hB : M ≤ s2.length := by
      rw [← hM, gmb_sum_eq]
      exact hraw.2.2.1
    have hpos : (0 : ℚ) < (s1.length : ℚ) + (s2.length : ℚ) := by
      have : 0 < s1.length + s2.length := by omega
      exact_mod_cast this
    refine ⟨div_nonneg (by positivity) (le_of_lt hpos), ?_, ?_⟩
    · rw [div_le_one hpos]
      have h2 : 2 * M ≤ s1.length + s2.length := by omega
      exact_mod_cast h2
    · intro h1
      rw [div_eq_one_iff_eq (ne_of_gt hpos)] at h1
      have h2 : 2 * M = s1.length + s2.length := by exact_mod_cast h1
      have hMA : ((gmbLoop s1 s2 (s1.length + s2.length + 1)
          [(0, s1.length, 0, s2.length)] []).map fun t => t.2.2).sum = s1.length := by
        rw [← gmb_sum_eq, hM]
        omega
      have hMB : ((gmbLoop s1 s2 (s1.length + s2.length + 1)
          [(0, s1.length, 0, s2.length)] []).map fun t => t.2.2).sum = s2.length := by
        rw [← gmb_sum_eq, hM]
        omega
      exact blocks_tile_eq s1 s2 _ hraw.1 hraw.2.2.2 hMA hMB

theorem C8_similarity_range_and_identity_witness :
    0 ≤ calculate_similarity "ok".data "ok".data ∧
    calculate_similarity "ok".data "ok".data ≤ 1 ∧
    ("ok".data : List Char) = "ok".data :=
  ⟨(C8_similarity_range_and_identity "ok".data "ok".data).1,
   (C8_similarity_range_and_identity "ok".data "ok".data).2.1,
   (C8_similarity_range_and_identity "ok".data "ok".data).2.2 (by
      unfold calculate_similarity
      rw [if_neg (by decide)]
      unfold ratioOf
      rw [show ((get_matching_blocks "ok".data "ok".data).map fun t => t.2.2).sum = 2
        from by decide]
      norm_num)⟩

